import Mathlib

/-!
# Verification of the `benchstat` statistics core

A shallow embedding, over exact rationals, of the statistics engine of
`rsc/benchstat` (vendored from `go-moremath`), together with proofs about it:

* the tie-free Mann–Whitney U distribution table (`UDist.p`),
* the Mann–Whitney CDF/PMF with and without ties (`UDist.CDF`, `UDist.PMF`,
  with the Cheung–Klotz memo recurrence `uMemoVal`),
* the regularized incomplete beta function (`betainc`, `betacf`) and the
  Student-t CDF (`tCDFAt`),
* the bisection root finder (`bisect`) and series summation (`series`),
* the CLI flag registry and usage-error exit (`benchstatFlags`, `benchstatExitCode`),
* nil-receiver safety of `Benchmark.Metric` and the multi-file comparison row.

Go `float64` values are modelled as `ℚ` (exact arithmetic, fixed summation
order preserved); Go `int` as `ℕ`/`ℤ` with Go's truncating division written
`Int.div`.  Transcendental library functions (`math.Exp`, `math.Log`,
`math.Lgamma`) are abstract parameters.  Go panics are modelled as
`Except.error`; unbounded `for` loops carry explicit fuel.
-/

namespace Benchstat

/-! ## The Mann–Whitney recurrence (specification side)

`mwCount n m u` is the integer-valued numerator of the Mann–Whitney null
distribution: the recurrence of Mann & Whitney (1947) with the `1/C(n+m,n)`
factor cleared.  `pSpec` is the probability recurrence exactly as stated in
the spec and in the comment of `UDist.p`:

  p_{n,m}(U) = (n * p_{n-1,m}(U-m) + m * p_{n,m-1}(U)) / (n+m)
  p_{n,m}(U) = 0                           if U < 0
  p_{0,m}(U) = p_{n,0}(U) = 1 / nCr(m+n, n) if U = 0
                          = 0               if U > 0
-/

/-- Integer Mann–Whitney recurrence (the probability recurrence with the
binomial denominator cleared). -/
def mwCount (n m : ℕ) (u : ℤ) : ℕ :=
  if u < 0 then 0
  else if n = 0 ∨ m = 0 then (if u = 0 then 1 else 0)
  else mwCount (n - 1) m (u - m) + mwCount n (m - 1) u
termination_by n + m
decreasing_by
  · omega
  · omega

/-- The Mann–Whitney null probability `p_{n,m}(u)`, defined by the recurrence
from the spec (and from the comment in `UDist.p`). -/
def pSpec (n m : ℕ) (u : ℤ) : ℚ :=
  if u < 0 then 0
  else if n = 0 ∨ m = 0 then (if u = 0 then 1 / (Nat.choose (n + m) n : ℚ) else 0)
  else ((n : ℚ) * pSpec (n - 1) m (u - m) + (m : ℚ) * pSpec n (m - 1) u) / ((n : ℚ) + (m : ℚ))
termination_by n + m
decreasing_by
  · omega
  · omega

lemma mwCount_neg (n m : ℕ) (u : ℤ) (h : u < 0) : mwCount n m u = 0 := by
  rw [mwCount]; simp [h]

lemma mwCount_base (n m : ℕ) (u : ℤ) (h : n = 0 ∨ m = 0) (h2 : ¬ u < 0) :
    mwCount n m u = if u = 0 then 1 else 0 := by
  rw [mwCount]; simp [h, h2]

lemma mwCount_rec (n m : ℕ) (u : ℤ) (hn : n ≠ 0) (hm : m ≠ 0) (hu : ¬ u < 0) :
    mwCount n m u = mwCount (n - 1) m (u - m) + mwCount n (m - 1) u := by
  rw [mwCount]; simp [hn, hm, hu]

private lemma mwCount_gt_aux : ∀ k n m (u : ℤ), n + m = k → ((n * m : ℕ) : ℤ) < u →
    mwCount n m u = 0 := by
  intro k
  induction k using Nat.strong_induction_on with
  | _ k ih =>
  intro n m u hk h
  subst hk
  rcases Nat.eq_zero_or_pos n with hn | hn
  · rw [mwCount]
    have : ¬ u = 0 := by subst hn; simp at h; omega
    simp [hn, this]
  rcases Nat.eq_zero_or_pos m with hm | hm
  · rw [mwCount]
    have : ¬ u = 0 := by subst hm; simp at h; omega
    simp [hm, this]
  have hu : ¬ u < 0 := by
    push_neg
    calc (0:ℤ) ≤ (n * m : ℕ) := by positivity
    _ ≤ u := le_of_lt h
  rw [mwCount_rec n m u (by omega) (by omega) hu]
  have e1 : (((n - 1) * m : ℕ) : ℤ) + (m : ℤ) = ((n * m : ℕ) : ℤ) := by
    have h' : (n - 1) * m + m = n * m := by
      cases n with
      | zero => omega
      | succ n' => simp [Nat.succ_mul]
    exact_mod_cast h'
  have e2 : ((n * (m - 1) : ℕ) : ℤ) ≤ ((n * m : ℕ) : ℤ) := by
    exact_mod_cast Nat.mul_le_mul_left n (by omega : m - 1 ≤ m)
  have h1 : mwCount (n - 1) m (u - m) = 0 :=
    ih ((n - 1) + m) (by omega) (n - 1) m (u - m) rfl (by omega)
  have h2 : mwCount n (m - 1) u = 0 :=
    ih (n + (m - 1)) (by omega) n (m - 1) u rfl (by omega)
  omega

/-- `mwCount` vanishes above `n*m`. -/
lemma mwCount_gt (n m : ℕ) (u : ℤ) (h : ((n * m : ℕ) : ℤ) < u) : mwCount n m u = 0 :=
  mwCount_gt_aux (n + m) n m u rfl h

/-- The defining recurrence holds with no sign condition on `u`. -/
lemma mwCount_rec' (n m : ℕ) (u : ℤ) (hn : n ≠ 0) (hm : m ≠ 0) :
    mwCount n m u = mwCount (n - 1) m (u - m) + mwCount n (m - 1) u := by
  by_cases hu : u < 0
  · rw [mwCount_neg _ _ _ hu, mwCount_neg _ _ _ (by omega), mwCount_neg _ _ _ hu]
  · exact mwCount_rec n m u hn hm hu

/-- Closed form for one element in the first sample. -/
lemma mwCount_row1 (m : ℕ) (u : ℤ) :
    mwCount 1 m u = if 0 ≤ u ∧ u ≤ m then 1 else 0 := by
  induction m generalizing u with
  | zero =>
    by_cases hu : u < 0
    · rw [mwCount_neg _ _ _ hu, if_neg (by omega)]
    · rw [mwCount_base 1 0 u (Or.inr rfl) hu]
      simp only [Nat.cast_zero]
      split_ifs <;> omega
  | succ m' ih =>
    rw [mwCount_rec' 1 (m' + 1) u (by omega) (by omega)]
    simp only [Nat.add_sub_cancel]
    rw [ih]
    by_cases hu : u - (m' + 1 : ℕ) < 0
    · rw [mwCount_neg _ _ _ hu]
      push_cast at hu ⊢
      split_ifs <;> omega
    · rw [mwCount_base 0 (m' + 1) _ (Or.inl rfl) hu]
      push_cast at hu ⊢
      split_ifs <;> omega

/-- Closed form for one element in the second sample. -/
lemma mwCount_col1 (n : ℕ) (u : ℤ) :
    mwCount n 1 u = if 0 ≤ u ∧ u ≤ n then 1 else 0 := by
  induction n generalizing u with
  | zero =>
    by_cases hu : u < 0
    · rw [mwCount_neg _ _ _ hu, if_neg (by omega)]
    · rw [mwCount_base 0 1 u (Or.inl rfl) hu]
      simp only [Nat.cast_zero]
      split_ifs <;> omega
  | succ n' ih =>
    rw [mwCount_rec' (n' + 1) 1 u (by omega) (by omega)]
    simp only [Nat.add_sub_cancel, Nat.cast_one]
    rw [ih]
    by_cases hu : u < 0
    · rw [mwCount_neg _ _ _ hu]
      push_cast
      split_ifs <;> omega
    · rw [mwCount_base (n' + 1) 0 u (Or.inr rfl) hu]
      push_cast
      split_ifs <;> omega

lemma mwCount_zero_left (m : ℕ) (u : ℤ) : mwCount 0 m u = if u = 0 then 1 else 0 := by
  by_cases hu : u < 0
  · rw [mwCount_neg _ _ _ hu, if_neg (by omega)]
  · exact mwCount_base 0 m u (Or.inl rfl) hu

lemma mwCount_zero_right (n : ℕ) (u : ℤ) : mwCount n 0 u = if u = 0 then 1 else 0 := by
  by_cases hu : u < 0
  · rw [mwCount_neg _ _ _ hu, if_neg (by omega)]
  · exact mwCount_base n 0 u (Or.inr rfl) hu

private lemma mwCount_rec2_aux : ∀ k n m (u : ℤ), n + m = k → n ≠ 0 → m ≠ 0 →
    mwCount n m u = mwCount n (m - 1) (u - n) + mwCount (n - 1) m u := by
  intro k
  induction k using Nat.strong_induction_on with
  | _ k ih =>
  intro n m u hk hn hm
  rcases (by omega : 1 ≤ n).eq_or_lt with hn1 | hn2
  · -- n = 1
    subst hn1
    simp only [Nat.sub_self]
    rw [mwCount_row1, mwCount_row1, mwCount_zero_left]
    split_ifs <;> omega
  rcases (by omega : 1 ≤ m).eq_or_lt with hm1 | hm2
  · -- m = 1
    subst hm1
    simp only [Nat.sub_self]
    rw [mwCount_col1, mwCount_col1, mwCount_zero_right]
    split_ifs <;> omega
  · -- 2 ≤ n, 2 ≤ m
    subst hk
    have h1 : mwCount (n - 1) m (u - m) =
        mwCount (n - 1) (m - 1) (u - m - ((n - 1 : ℕ) : ℤ)) + mwCount (n - 1 - 1) m (u - m) :=
      ih ((n - 1) + m) (by omega) (n - 1) m (u - m) rfl (by omega) (by omega)
    have h2 : mwCount n (m - 1) u =
        mwCount n (m - 1 - 1) (u - n) + mwCount (n - 1) (m - 1) u :=
      ih (n + (m - 1)) (by omega) n (m - 1) u rfl (by omega) (by omega)
    have h3 : mwCount n (m - 1) (u - n) =
        mwCount (n - 1) (m - 1) (u - n - ((m - 1 : ℕ) : ℤ)) + mwCount n (m - 1 - 1) (u - n) :=
      mwCount_rec' n (m - 1) (u - n) (by omega) (by omega)
    have h4 : mwCount (n - 1) m u =
        mwCount (n - 1 - 1) m (u - m) + mwCount (n - 1) (m - 1) u :=
      mwCount_rec' (n - 1) m u (by omega) (by omega)
    have e : u - (m : ℤ) - ((n - 1 : ℕ) : ℤ) = u - (n : ℤ) - ((m - 1 : ℕ) : ℤ) := by omega
    rw [mwCount_rec' n m u (by omega) (by omega), h1, h2, h3, h4, e]
    ring

/-- The "other" Pascal-style recurrence for `mwCount`, obtained by splitting on
the largest part instead of the number of parts. -/
lemma mwCount_rec2 (n m : ℕ) (u : ℤ) (hn : n ≠ 0) (hm : m ≠ 0) :
    mwCount n m u = mwCount n (m - 1) (u - n) + mwCount (n - 1) m u :=
  mwCount_rec2_aux (n + m) n m u rfl hn hm

private lemma mwCount_symm_aux : ∀ k n m (u : ℤ), n + m = k →
    mwCount n m u = mwCount m n u := by
  intro k
  induction k using Nat.strong_induction_on with
  | _ k ih =>
  intro n m u hk
  rcases Nat.eq_zero_or_pos n with hn | hn
  · subst hn
    rw [mwCount_zero_left, mwCount_zero_right]
  rcases Nat.eq_zero_or_pos m with hm | hm
  · subst hm
    rw [mwCount_zero_left, mwCount_zero_right]
  subst hk
  rw [mwCount_rec2 n m u (by omega) (by omega),
    mwCount_rec' m n u (by omega) (by omega),
    ih (n + (m - 1)) (by omega) n (m - 1) (u - n) rfl,
    ih ((n - 1) + m) (by omega) (n - 1) m u rfl]

/-- Mann–Whitney symmetry in the two sample sizes. -/
lemma mwCount_symm (n m : ℕ) (u : ℤ) : mwCount n m u = mwCount m n u :=
  mwCount_symm_aux (n + m) n m u rfl

private lemma mwCount_reflect_aux : ∀ k n m (u : ℤ), n + m = k → 0 ≤ u →
    u ≤ (n * m : ℕ) → mwCount n m ((n * m : ℕ) - u) = mwCount n m u := by
  intro k
  induction k using Nat.strong_induction_on with
  | _ k ih =>
  intro n m u hk h0 hnm
  rcases Nat.eq_zero_or_pos n with hn | hn
  · subst hn
    simp only [Nat.zero_mul, Nat.cast_zero, zero_sub] at hnm ⊢
    have : u = 0 := by omega
    subst this
    rfl
  rcases Nat.eq_zero_or_pos m with hm | hm
  · subst hm
    simp only [Nat.mul_zero, Nat.cast_zero, zero_sub] at hnm ⊢
    have : u = 0 := by omega
    subst this
    rfl
  subst hk
  rw [mwCount_rec' n m ((n * m : ℕ) - u) (by omega) (by omega)]
  have cast1 : (((n - 1) * m : ℕ) : ℤ) = ((n * m : ℕ) : ℤ) - (m : ℤ) := by
    have h' : (n - 1) * m + m = n * m := by
      cases n with
      | zero => omega
      | succ n' => simp [Nat.succ_mul]
    omega
  have cast2 : ((n * (m - 1) : ℕ) : ℤ) = ((n * m : ℕ) : ℤ) - (n : ℤ) := by
    have h' : n * (m - 1) + n = n * m := by
      cases m with
      | zero => omega
      | succ m' => simp [Nat.mul_succ]
    omega
  have t1 : mwCount (n - 1) m ((n * m : ℕ) - u - m) = mwCount (n - 1) m u := by
    by_cases hc : u ≤ (((n - 1) * m : ℕ) : ℤ)
    · have := ih ((n - 1) + m) (by omega) (n - 1) m u rfl h0 hc
      rw [← this]
      congr 1
      omega
    · rw [mwCount_neg _ _ _ (by omega), mwCount_gt _ _ _ (by omega)]
  have t2 : mwCount n (m - 1) ((n * m : ℕ) - u) = mwCount n (m - 1) (u - n) := by
    by_cases hc : (n : ℤ) ≤ u
    · have := ih (n + (m - 1)) (by omega) n (m - 1) (u - n) rfl (by omega) (by omega)
      rw [← this]
      congr 1
      omega
    · rw [mwCount_gt _ _ _ (by omega), mwCount_neg _ _ _ (by omega)]
  rw [t1, t2, mwCount_rec2 n m u (by omega) (by omega)]
  ring

/-- The Mann–Whitney counts are symmetric about `n*m/2`. -/
lemma mwCount_reflect (n m : ℕ) (u : ℤ) (h0 : 0 ≤ u) (h1 : u ≤ (n * m : ℕ)) :
    mwCount n m ((n * m : ℕ) - u) = mwCount n m u :=
  mwCount_reflect_aux (n + m) n m u rfl h0 h1


lemma pSpec_neg (n m : ℕ) (u : ℤ) (h : u < 0) : pSpec n m u = 0 := by
  rw [pSpec]; simp [h]

lemma pSpec_base (n m : ℕ) (u : ℤ) (h : n = 0 ∨ m = 0) (h2 : ¬ u < 0) :
    pSpec n m u = if u = 0 then 1 / (Nat.choose (n + m) n : ℚ) else 0 := by
  rw [pSpec]; simp [h, h2]

lemma pSpec_rec (n m : ℕ) (u : ℤ) (hn : n ≠ 0) (hm : m ≠ 0) (hu : ¬ u < 0) :
    pSpec n m u =
      ((n : ℚ) * pSpec (n - 1) m (u - m) + (m : ℚ) * pSpec n (m - 1) u) / ((n : ℚ) + (m : ℚ)) := by
  rw [pSpec]; simp [hn, hm, hu]

private lemma choose_id1 (n m : ℕ) (hn : n ≠ 0) (hm : m ≠ 0) :
    (n + m) * Nat.choose ((n - 1) + m) (n - 1) = Nat.choose (n + m) n * n := by
  have e1 : (n - 1) + m = n + m - 1 := by omega
  have h := Nat.succ_mul_choose_eq (n + m - 1) (n - 1)
  rw [Nat.succ_eq_add_one, Nat.succ_eq_add_one] at h
  rw [show n + m - 1 + 1 = n + m by omega, show n - 1 + 1 = n by omega] at h
  rw [e1]
  exact h

private lemma choose_id2 (n m : ℕ) ( _hn : n ≠ 0) (hm : m ≠ 0) :
    (n + m) * Nat.choose (n + (m - 1)) n = Nat.choose (n + m) n * m := by
  have e1 : n + (m - 1) = n + m - 1 := by omega
  have e2 : Nat.choose (n + m - 1) n = Nat.choose (n + m - 1) (m - 1) := by
    have h := Nat.choose_symm (show n ≤ n + m - 1 by omega)
    rw [show n + m - 1 - n = m - 1 by omega] at h
    exact h.symm
  have h := Nat.succ_mul_choose_eq (n + m - 1) (m - 1)
  rw [Nat.succ_eq_add_one, Nat.succ_eq_add_one] at h
  rw [show n + m - 1 + 1 = n + m by omega, show m - 1 + 1 = m by omega] at h
  have e3 : Nat.choose (n + m) m = Nat.choose (n + m) n := by
    have h' := Nat.choose_symm (show m ≤ n + m by omega)
    rw [show n + m - m = n by omega] at h'
    exact h'.symm
  rw [e1, e2, h, e3]

private lemma pSpec_eq_count_aux : ∀ k n m (u : ℤ), n + m = k →
    pSpec n m u = (mwCount n m u : ℚ) / (Nat.choose (n + m) n : ℚ) := by
  intro k
  induction k using Nat.strong_induction_on with
  | _ k ih =>
  intro n m u hk
  by_cases hu : u < 0
  · rw [pSpec_neg _ _ _ hu, mwCount_neg _ _ _ hu]
    simp
  by_cases hbase : n = 0 ∨ m = 0
  · rw [pSpec_base _ _ _ hbase hu, mwCount_base _ _ _ hbase hu]
    split_ifs <;> simp
  push_neg at hbase
  obtain ⟨hn, hm⟩ := hbase
  subst hk
  rw [pSpec_rec n m u hn hm hu, mwCount_rec' n m u hn hm,
    ih ((n - 1) + m) (by omega) (n - 1) m (u - m) rfl,
    ih (n + (m - 1)) (by omega) n (m - 1) u rfl]
  have hCpos : 0 < (Nat.choose (n + m) n : ℚ) := by
    exact_mod_cast Nat.choose_pos (show n ≤ n + m by omega)
  have hC1pos : 0 < (Nat.choose ((n - 1) + m) (n - 1) : ℚ) := by
    exact_mod_cast Nat.choose_pos (show n - 1 ≤ (n - 1) + m by omega)
  have hC2pos : 0 < (Nat.choose (n + (m - 1)) n : ℚ) := by
    exact_mod_cast Nat.choose_pos (show n ≤ n + (m - 1) by omega)
  have id1 : ((n : ℚ) + m) * (Nat.choose ((n - 1) + m) (n - 1) : ℚ) =
      (Nat.choose (n + m) n : ℚ) * n := by
    exact_mod_cast choose_id1 n m hn hm
  have id2 : ((n : ℚ) + m) * (Nat.choose (n + (m - 1)) n : ℚ) =
      (Nat.choose (n + m) n : ℚ) * m := by
    exact_mod_cast choose_id2 n m hn hm
  have hnm : (0:ℚ) < (n : ℚ) + m := by
    have h1 : (0:ℚ) < (n : ℚ) := by exact_mod_cast Nat.pos_of_ne_zero hn
    have h2 : (0:ℚ) ≤ (m : ℚ) := by positivity
    linarith
  set C : ℚ := (Nat.choose (n + m) n : ℚ)
  set C1 : ℚ := (Nat.choose ((n - 1) + m) (n - 1) : ℚ)
  set C2 : ℚ := (Nat.choose (n + (m - 1)) n : ℚ)
  set r1 : ℚ := (mwCount (n - 1) m (u - (m : ℤ)) : ℚ)
  set r2 : ℚ := (mwCount n (m - 1) u : ℚ)
  have e1 : (n : ℚ) / C1 = ((n : ℚ) + m) / C := by
    rw [div_eq_div_iff hC1pos.ne' hCpos.ne']
    linear_combination -id1
  have e2 : (m : ℚ) / C2 = ((n : ℚ) + m) / C := by
    rw [div_eq_div_iff hC2pos.ne' hCpos.ne']
    linear_combination -id2
  rw [Nat.cast_add]
  rw [div_eq_div_iff hnm.ne' hCpos.ne',
    show (n : ℚ) * (r1 / C1) + (m : ℚ) * (r2 / C2) = r1 * ((n : ℚ) / C1) + r2 * ((m : ℚ) / C2)
      from by ring,
    e1, e2]
  field_simp
  ring

/-- `pSpec` is `mwCount` normalized by the binomial coefficient. -/
lemma pSpec_eq_count (n m : ℕ) (u : ℤ) :
    pSpec n m u = (mwCount n m u : ℚ) / (Nat.choose (n + m) n : ℚ) :=
  pSpec_eq_count_aux (n + m) n m u rfl

/-- `pSpec` vanishes above `n*m`. -/
lemma pSpec_gt (n m : ℕ) (u : ℤ) (h : ((n * m : ℕ) : ℤ) < u) : pSpec n m u = 0 := by
  rw [pSpec_eq_count, mwCount_gt _ _ _ h]
  simp

/-- Sample-size symmetry of the Mann–Whitney null distribution. -/
lemma pSpec_symm (n m : ℕ) (u : ℤ) : pSpec n m u = pSpec m n u := by
  rw [pSpec_eq_count, pSpec_eq_count, mwCount_symm]
  have e : Nat.choose (n + m) n = Nat.choose (m + n) m := by
    have h := Nat.choose_symm (show n ≤ n + m by omega)
    rw [show n + m - n = m by omega] at h
    rw [← h, Nat.add_comm]
  rw [e]

private lemma mwCount_total_aux : ∀ k n m, n + m = k →
    ∑ u ∈ Finset.range (n * m + 1), mwCount n m (u : ℤ) = Nat.choose (n + m) n := by
  intro k
  induction k using Nat.strong_induction_on with
  | _ k ih =>
  intro n m hk
  rcases Nat.eq_zero_or_pos n with hn | hn
  · subst hn
    simp [mwCount_zero_left]
  rcases Nat.eq_zero_or_pos m with hm | hm
  · subst hm
    simp [mwCount_zero_right]
  subst hk
  have expand : ∀ u ∈ Finset.range (n * m + 1), mwCount n m (u : ℤ) =
      mwCount (n - 1) m ((u : ℤ) - m) + mwCount n (m - 1) (u : ℤ) :=
    fun u _ => mwCount_rec' n m u (by omega) (by omega)
  rw [Finset.sum_congr rfl expand, Finset.sum_add_distrib]
  have split1 : n * m + 1 = m + ((n - 1) * m + 1) := by
    cases n with
    | zero => omega
    | succ n' => simp [Nat.succ_mul]; omega
  have first : ∑ u ∈ Finset.range (n * m + 1), mwCount (n - 1) m ((u : ℤ) - m) =
      Nat.choose ((n - 1) + m) (n - 1) := by
    rw [split1, Finset.sum_range_add]
    have z : ∀ u ∈ Finset.range m, mwCount (n - 1) m ((u : ℤ) - m) = 0 := by
      intro u hu
      simp only [Finset.mem_range] at hu
      exact mwCount_neg _ _ _ (by omega)
    rw [Finset.sum_congr rfl z, Finset.sum_const_zero, zero_add]
    have shift : ∀ i ∈ Finset.range ((n - 1) * m + 1),
        mwCount (n - 1) m (((m + i : ℕ) : ℤ) - m) = mwCount (n - 1) m (i : ℤ) := by
      intro i _
      congr 1
      push_cast
      ring
    rw [Finset.sum_congr rfl shift]
    exact ih ((n - 1) + m) (by omega) (n - 1) m rfl
  have split2 : n * m + 1 = (n * (m - 1) + 1) + n := by
    cases m with
    | zero => omega
    | succ m' => simp [Nat.mul_succ]; omega
  have second : ∑ u ∈ Finset.range (n * m + 1), mwCount n (m - 1) (u : ℤ) =
      Nat.choose (n + (m - 1)) n := by
    rw [split2, Finset.sum_range_add]
    have z : ∀ i ∈ Finset.range n, mwCount n (m - 1) (((n * (m - 1) + 1 + i : ℕ) : ℤ)) = 0 := by
      intro i _
      exact mwCount_gt _ _ _ (by push_cast; omega)
    rw [Finset.sum_congr rfl z, Finset.sum_const_zero, add_zero]
    exact ih (n + (m - 1)) (by omega) n (m - 1) rfl
  rw [first, second]
  have e1 : (n - 1) + m = n + m - 1 := by omega
  have e2 : n + (m - 1) = n + m - 1 := by omega
  rw [e1, e2]
  have h := Nat.choose_succ_succ' (n + m - 1) (n - 1)
  rw [show n + m - 1 + 1 = n + m by omega, show n - 1 + 1 = n by omega] at h
  exact h.symm

/-- The Mann–Whitney counts over the full support sum to `C(n+m, n)`. -/
lemma mwCount_total (n m : ℕ) :
    ∑ u ∈ Finset.range (n * m + 1), mwCount n m (u : ℤ) = Nat.choose (n + m) n :=
  mwCount_total_aux (n + m) n m rfl

/-- Splitting the full-support sum at `Ui`: the upper tail equals the reflected
lower tail. -/
lemma mwCount_flip (n m Ui : ℕ) (h : Ui < n * m) :
    (∑ u ∈ Finset.range (Ui + 1), mwCount n m (u : ℤ)) +
      ∑ u ∈ Finset.range (n * m - Ui), mwCount n m (u : ℤ) = Nat.choose (n + m) n := by
  have split : n * m + 1 = (Ui + 1) + (n * m - Ui) := by omega
  have htot := mwCount_total n m
  rw [split, Finset.sum_range_add] at htot
  have pointwise : ∀ i ∈ Finset.range (n * m - Ui),
      mwCount n m ((Ui + 1 + i : ℕ) : ℤ) = mwCount n m ((n * m - Ui - 1 - i : ℕ) : ℤ) := by
    intro i hi
    simp only [Finset.mem_range] at hi
    have hr := mwCount_reflect n m ((Ui + 1 + i : ℕ) : ℤ) (by positivity) (by push_cast; omega)
    rw [← hr]
    congr 1
    push_cast
    omega
  rw [Finset.sum_congr rfl pointwise] at htot
  have hrefl := Finset.sum_range_reflect (fun j => mwCount n m (j : ℤ)) (n * m - Ui)
  simp only at hrefl
  rw [hrefl] at htot
  exact htot

/-- The tail-flip identity for the normalized probabilities: summing the
reflected upper tail and subtracting from 1 equals the direct prefix sum. -/
lemma pSpec_flip (n m Ui : ℕ) (h : Ui < n * m) :
    1 - ∑ u ∈ Finset.range (n * m - Ui), pSpec n m (u : ℤ) =
      ∑ u ∈ Finset.range (Ui + 1), pSpec n m (u : ℤ) := by
  have hC : (0:ℚ) < (Nat.choose (n + m) n : ℚ) := by
    exact_mod_cast Nat.choose_pos (show n ≤ n + m by omega)
  have key : ((∑ u ∈ Finset.range (Ui + 1), mwCount n m (u : ℤ) : ℕ) : ℚ) +
      ((∑ u ∈ Finset.range (n * m - Ui), mwCount n m (u : ℤ) : ℕ) : ℚ) =
      (Nat.choose (n + m) n : ℚ) := by
    exact_mod_cast mwCount_flip n m Ui h
  have cast_sum : ∀ L : ℕ, ∑ u ∈ Finset.range L, pSpec n m (u : ℤ) =
      ((∑ u ∈ Finset.range L, mwCount n m (u : ℤ) : ℕ) : ℚ) /
        (Nat.choose (n + m) n : ℚ) := by
    intro L
    calc ∑ u ∈ Finset.range L, pSpec n m (u : ℤ)
        = ∑ u ∈ Finset.range L, (mwCount n m (u : ℤ) : ℚ) / (Nat.choose (n + m) n : ℚ) :=
          Finset.sum_congr rfl (fun u _ => pSpec_eq_count n m (u : ℤ))
      _ = (∑ u ∈ Finset.range L, (mwCount n m (u : ℤ) : ℚ)) / (Nat.choose (n + m) n : ℚ) := by
          rw [Finset.sum_div]
      _ = ((∑ u ∈ Finset.range L, mwCount n m (u : ℤ) : ℕ) : ℚ) /
            (Nat.choose (n + m) n : ℚ) := by
          rw [Nat.cast_sum]
  rw [cast_sum, cast_sum]
  field_simp
  push_cast at key
  linear_combination -key

/-! ## `UDist` and the tie-free table `UDist.p`

Embedding of `udist.go`.  The Go slice-of-slices `memo` (one row per `n`,
indexed by `U`) is modelled as a function `ℕ → ℕ → ℚ`; the in-place writes of
the inner loop become pointwise updates (`updMemo`), performed in the same
order (one row at a time, `U1` descending), with reads going to the current
state so that the aliasing of `rp`/`out` in the Go code is preserved. -/

/-- A UDist is the discrete probability distribution of the Mann-Whitney U
statistic for a pair of samples of sizes `N1` and `N2`, with tie vector `T`
(empty meaning no ties). -/
structure UDist where
  N1 : ℕ
  N2 : ℕ
  T : List ℕ := []

/-- `hasTies` returns true if `d` has any tied samples. -/
def UDist.hasTies (d : UDist) : Bool :=
  d.T.any (fun t => 1 < t)

/-- Write `v` at row `i`, column `j` of the memo table. -/
def updMemo (memo : ℕ → ℕ → ℚ) (i j : ℕ) (v : ℚ) : ℕ → ℕ → ℚ :=
  fun i' j' => if i' = i ∧ j' = j then v else memo i' j'

/-- The value written by one step of the inner `U1` loop of `UDist.p`:
`out[U1] = (l + r) / (n+m)` with `l = n*lp[U1-m]` when `U1-m ≥ 0` and
`r = m*rp[U1]`. -/
def pCell (n rpIdx m : ℕ) (memo : ℕ → ℕ → ℚ) (u1 : ℕ) : ℚ :=
  ((if m ≤ u1 then (n : ℚ) * memo (n - 1) (u1 - m) else 0) +
    (m : ℚ) * memo rpIdx u1) / ((n : ℚ) + (m : ℚ))

/-- The inner loop of `UDist.p`: rewrite row `n` in place from `U1` down to 0. -/
def pInner (n rpIdx m : ℕ) : ℕ → (ℕ → ℕ → ℚ) → (ℕ → ℕ → ℚ)
  | 0, memo => updMemo memo n 0 (pCell n rpIdx m memo 0)
  | u1 + 1, memo => pInner n rpIdx m u1 (updMemo memo n (u1 + 1) (pCell n rpIdx m memo (u1 + 1)))

/-- The row loop of `UDist.p`: process rows `n, n+1, …, nlim` of column `m`. -/
def pRows (m U : ℕ) (memo : ℕ → ℕ → ℚ) (n nlim : ℕ) : ℕ → ℕ → ℚ :=
  if nlim < n then memo
  else
    let rpIdx := if n < m then n else m - 1
    let ulim := min (n * m) U
    pRows m U (pInner n rpIdx m ulim memo) (n + 1) nlim
termination_by nlim + 1 - n
decreasing_by omega

/-- The outer loop of `UDist.p` over `m = 0, …, M`: set `memo[0][0] = 1`, then
fill rows `1, …, min N m`. -/
def pOuter (N U : ℕ) (memo : ℕ → ℕ → ℚ) (m M : ℕ) : ℕ → ℕ → ℚ :=
  if M < m then memo
  else pOuter N U (pRows m U (updMemo memo 0 0 1) 1 (min N m)) (m + 1) M
termination_by M + 1 - m
decreasing_by omega

/-- `UDist.p`: the dynamic-programming table of `p_{d.N1,d.N2}` for values of
`U` from 0 up to and including the `U` argument (row `N = min N1 N2` of the
memo table; the symmetric pair is swapped so that `n ≤ m`). -/
def UDist.p (d : UDist) (U : ℕ) : ℕ → ℚ :=
  pOuter (min d.N1 d.N2) U (fun _ _ => 0) 0 (max d.N1 d.N2) (min d.N1 d.N2)

lemma updMemo_same (memo : ℕ → ℕ → ℚ) (i j : ℕ) (v : ℚ) : updMemo memo i j v i j = v := by
  simp [updMemo]

lemma updMemo_ne (memo : ℕ → ℕ → ℚ) (i j : ℕ) (v : ℚ) (i' j' : ℕ)
    (h : ¬ (i' = i ∧ j' = j)) : updMemo memo i j v i' j' = memo i' j' := by
  simp only [updMemo, if_neg h]

/-- `pInner` only writes to row `n`. -/
lemma pInner_ne (n rpIdx m : ℕ) : ∀ u1 memo i j, i ≠ n →
    pInner n rpIdx m u1 memo i j = memo i j := by
  intro u1
  induction u1 with
  | zero =>
    intro memo i j hi
    simp only [pInner]
    exact updMemo_ne _ _ _ _ _ _ (by tauto)
  | succ u1' ih =>
    intro memo i j hi
    simp only [pInner]
    rw [ih _ i j hi]
    exact updMemo_ne _ _ _ _ _ _ (by tauto)

/-- `pInner` only writes to columns `≤ u1`. -/
lemma pInner_gt (n rpIdx m : ℕ) : ∀ u1 memo j, u1 < j →
    pInner n rpIdx m u1 memo n j = memo n j := by
  intro u1
  induction u1 with
  | zero =>
    intro memo j hj
    simp only [pInner]
    exact updMemo_ne _ _ _ _ _ _ (by omega)
  | succ u1' ih =>
    intro memo j hj
    simp only [pInner]
    rw [ih _ j (by omega)]
    exact updMemo_ne _ _ _ _ _ _ (by omega)

/-- Correctness of the inner loop on row `n`: assuming row `n-1` already holds
`p_{n-1,m}` and the `rp` row holds `p_{n,m-1}` on the not-yet-written columns,
the rewritten cells hold `p_{n,m}`. -/
lemma pInner_spec (n m rpIdx U : ℕ) (hn : n ≠ 0) (hm : m ≠ 0) :
    ∀ u1, u1 ≤ U → ∀ memo : ℕ → ℕ → ℚ,
    (∀ u, u ≤ U → memo (n - 1) u = pSpec (n - 1) m u) →
    (∀ u, u ≤ u1 → memo rpIdx u = pSpec n (m - 1) u) →
    ∀ j, j ≤ u1 → pInner n rpIdx m u1 memo n j = pSpec n m j := by
  intro u1
  induction u1 with
  | zero =>
    intro _ memo hA hB j hj
    have hj0 : j = 0 := by omega
    subst hj0
    simp only [pInner]
    rw [updMemo_same]
    rw [pCell, if_neg (by omega), hB 0 le_rfl]
    simp only [Nat.cast_zero]
    rw [pSpec_rec n m 0 hn hm (by omega), pSpec_neg (n - 1) m ((0:ℤ) - m) (by
      have hmz : (0:ℤ) < (m:ℤ) := by exact_mod_cast Nat.pos_of_ne_zero hm
      omega)]
    ring
  | succ u1' ih =>
    intro hu1 memo hA hB j hj
    simp only [pInner]
    rcases Nat.lt_or_ge j (u1' + 1) with hlt | hge
    · -- handled by the recursive call on the updated memo
      refine ih (by omega) _ ?_ ?_ j (by omega)
      · intro u hu
        rw [updMemo_ne _ _ _ _ _ _ (by omega)]
        exact hA u hu
      · intro u hu
        rw [updMemo_ne _ _ _ _ _ _ (by
          rintro ⟨h1, h2⟩
          omega)]
        exact hB u (by omega)
    · -- j = u1' + 1 : the cell written before the recursive call
      have hj1 : j = u1' + 1 := by omega
      subst hj1
      rw [pInner_gt n rpIdx m u1' _ _ (by omega), updMemo_same]
      rw [pCell, hB _ le_rfl, pSpec_rec n m ((u1' + 1 : ℕ) : ℤ) hn hm (by omega)]
      by_cases hcase : m ≤ u1' + 1
      · rw [if_pos hcase, hA _ (by omega)]
        have ecast : (((u1' + 1 - m : ℕ)) : ℤ) = ((u1' + 1 : ℕ) : ℤ) - (m : ℤ) := by omega
        rw [ecast]
      · rw [if_neg hcase, pSpec_neg (n - 1) m (((u1' + 1 : ℕ) : ℤ) - m) (by
          push_cast
          omega)]
        push_cast
        ring

/-- Processing one row `n` (with `1 ≤ n ≤ min N m`, hence `n ≤ m`) upgrades the
memo invariant from "rows `< n` done" to "rows `≤ n` done". -/
lemma pRow_step (m N U n : ℕ) (hm : 1 ≤ m) (hn1 : 1 ≤ n) (hnN : n ≤ N) (hnm : n ≤ m)
    (memo : ℕ → ℕ → ℚ)
    (pre : ∀ i, i ≤ N → ∀ u, u ≤ U → memo i u =
      if i ≤ n - 1 then pSpec i m u else if i ≤ m - 1 then pSpec i (m - 1) u else 0) :
    ∀ i, i ≤ N → ∀ u, u ≤ U →
      pInner n (if n < m then n else m - 1) m (min (n * m) U) memo i u =
      (if i ≤ n then pSpec i m u else if i ≤ m - 1 then pSpec i (m - 1) u else 0) := by
  have hA : ∀ u, u ≤ U → memo (n - 1) u = pSpec (n - 1) m u := by
    intro u hu
    rw [pre (n - 1) (by omega) u hu, if_pos (by omega)]
  have hB : ∀ u, u ≤ min (n * m) U → memo (if n < m then n else m - 1) u
      = pSpec n (m - 1) u := by
    intro u hu
    by_cases hc : n < m
    · rw [if_pos hc, pre n (by omega) u (by omega), if_neg (by omega), if_pos (by omega)]
    · have hnm' : n = m := by omega
      rw [if_neg hc, pre (m - 1) (by omega) u (by omega), if_pos (by omega)]
      subst hnm'
      exact pSpec_symm (n - 1) n u
  intro i hiN u hu
  by_cases hi : i = n
  · subst hi
    by_cases hcol : u ≤ min (i * m) U
    · rw [pInner_spec i m (if i < m then i else m - 1) U (by omega) (by omega)
        (min (i * m) U) (by omega) memo hA hB u hcol, if_pos le_rfl]
    · rw [pInner_gt _ _ _ _ _ _ (by omega), pre i hiN u hu, if_pos le_rfl]
      have hgt : ((i * m : ℕ) : ℤ) < ((u : ℕ) : ℤ) := by
        simp only [not_le, lt_min_iff] at hcol
        exact_mod_cast (by omega : i * m < u)
      rw [if_neg (by omega), pSpec_gt i m u hgt]
      by_cases hc2 : i ≤ m - 1
      · rw [if_pos hc2, pSpec_gt i (m - 1) u (by
          have : i * (m - 1) ≤ i * m := Nat.mul_le_mul_left i (by omega)
          have : ((i * (m - 1) : ℕ) : ℤ) ≤ ((i * m : ℕ) : ℤ) := by exact_mod_cast this
          omega)]
      · rw [if_neg hc2]
  · rw [pInner_ne _ _ _ _ _ _ _ hi, pre i hiN u hu]
    by_cases hc : i ≤ n - 1
    · rw [if_pos hc, if_pos (show i ≤ n by omega)]
    · rw [if_neg hc, if_neg (show ¬ i ≤ n by omega)]

/-- Correctness of the row loop: starting from row 1 with the "column `m-1`"
invariant, after processing rows `1, …, min N m` the memo holds column `m` on
rows `≤ min N m`. -/
lemma pRows_spec (m N U : ℕ) (hm : 1 ≤ m) : ∀ fuel n memo, min N m + 1 - n ≤ fuel →
    1 ≤ n → n ≤ min N m + 1 →
    (∀ i, i ≤ N → ∀ u, u ≤ U → memo i u =
      if i ≤ n - 1 then pSpec i m u else if i ≤ m - 1 then pSpec i (m - 1) u else 0) →
    ∀ i, i ≤ N → ∀ u, u ≤ U → pRows m U memo n (min N m) i u =
      (if i ≤ min N m then pSpec i m u else if i ≤ m - 1 then pSpec i (m - 1) u else 0) := by
  intro fuel
  induction fuel with
  | zero =>
    intro n memo hfuel h1 h2 pre i hiN u hu
    have hn : min N m < n := by omega
    rw [pRows, if_pos hn, pre i hiN u hu]
    by_cases hc : i ≤ min N m
    · rw [if_pos (by omega), if_pos hc]
    · rw [if_neg (by omega), if_neg hc]
  | succ fuel' ih =>
    intro n memo hfuel h1 h2 pre i hiN u hu
    by_cases hn : min N m < n
    · rw [pRows, if_pos hn, pre i hiN u hu]
      have hn' : n = min N m + 1 := by omega
      by_cases hc : i ≤ min N m
      · rw [if_pos (by omega), if_pos hc]
      · rw [if_neg (by omega), if_neg hc]
    · rw [pRows, if_neg hn]
      have step := pRow_step m N U n hm h1 (by omega) (by omega) memo pre
      exact ih (n + 1) _ (by omega) (by omega) (by omega)
        (by
          intro i' hi' u' hu'
          rw [step i' hi' u' hu']
          simp only [Nat.add_sub_cancel]) i hiN u hu

/-- Correctness of the outer loop: starting from column `m` with rows holding
column `m-1` (all-zero when `m = 0`), after columns `m, …, M` the memo rows
`≤ M` hold `p_{·,M}`. -/
lemma pOuter_spec (N U : ℕ) : ∀ fuel m M memo, M + 1 - m ≤ fuel → m ≤ M + 1 →
    (∀ i, i ≤ N → ∀ u, u ≤ U → memo i u =
      if m ≠ 0 ∧ i ≤ m - 1 then pSpec i (m - 1) u else 0) →
    ∀ i, i ≤ N → ∀ u, u ≤ U → pOuter N U memo m M i u =
      (if i ≤ M then pSpec i M u else 0) := by
  intro fuel
  induction fuel with
  | zero =>
    intro m M memo hfuel hm pre i hiN u hu
    have hm' : M < m := by omega
    have hm'' : m = M + 1 := by omega
    rw [pOuter, if_pos hm', pre i hiN u hu]
    subst hm''
    simp only [Nat.add_sub_cancel]
    by_cases hc : i ≤ M
    · rw [if_pos (by omega), if_pos hc]
    · rw [if_neg (by omega), if_neg hc]
  | succ fuel' ih =>
    intro m M memo hfuel hm pre i hiN u hu
    by_cases hstop : M < m
    · have hm'' : m = M + 1 := by omega
      rw [pOuter, if_pos hstop, pre i hiN u hu]
      subst hm''
      simp only [Nat.add_sub_cancel]
      by_cases hc : i ≤ M
      · rw [if_pos (by omega), if_pos hc]
      · rw [if_neg (by omega), if_neg hc]
    · rw [pOuter, if_neg hstop]
      -- invariant for the start of column m, after `memo[0][0] = 1`
      have upd : ∀ i, i ≤ N → ∀ u, u ≤ U → updMemo memo 0 0 1 i u =
          if i = 0 ∧ u = 0 then 1 else if m ≠ 0 ∧ i ≤ m - 1 then pSpec i (m - 1) u else 0 := by
        intro i hiN' u hu'
        by_cases hc : i = 0 ∧ u = 0
        · rw [if_pos hc]
          obtain ⟨rfl, rfl⟩ := hc
          exact updMemo_same _ _ _ _
        · rw [if_neg hc, updMemo_ne _ _ _ _ _ _ hc, pre i hiN' u hu']
      rcases Nat.eq_zero_or_pos m with hm0 | hmpos
      · -- m = 0 : min N 0 = 0, the row loop does nothing
        subst hm0
        refine ih 1 M _ (by omega) (by omega) ?_ i hiN u hu
        intro i' hi' u' hu'
        have hrows : pRows 0 U (updMemo memo 0 0 1) 1 (min N 0) i' u' =
            updMemo memo 0 0 1 i' u' := by
          rw [pRows, if_pos (by omega)]
        rw [hrows, upd i' hi' u' hu']
        by_cases hc : i' = 0 ∧ u' = 0
        · obtain ⟨rfl, rfl⟩ := hc
          simp only [if_pos (⟨rfl, rfl⟩ : (0:ℕ) = 0 ∧ (0:ℕ) = 0)]
          norm_num
          rw [pSpec_base 0 0 0 (Or.inl rfl) (by norm_num)]
          norm_num
        · rw [if_neg hc]
          rw [if_neg (by omega)]
          by_cases hi0 : (0 + 1 : ℕ) ≠ 0 ∧ i' ≤ 0
          · rw [if_pos hi0]
            have hu0 : u' ≠ 0 := by
              intro h'
              exact hc ⟨by omega, h'⟩
            rw [pSpec_base i' 0 u' (Or.inr rfl) (by omega), if_neg (by
              intro h'
              apply hu0
              exact_mod_cast h')]
          · rw [if_neg hi0]
      · -- m ≥ 1 : run the row loop
        refine ih (m + 1) M _ (by omega) (by omega) ?_ i hiN u hu
        intro i' hi' u' hu'
        simp only [Nat.add_sub_cancel]
        have hrows := pRows_spec m N U (by omega) (min N m + 1) 1 (updMemo memo 0 0 1)
          (by omega) (by omega) (by omega) ?_ i' hi' u' hu'
        · rw [hrows]
          by_cases hc : i' ≤ min N m
          · rw [if_pos hc, if_pos (show m + 1 ≠ 0 ∧ i' ≤ m by
              refine ⟨by omega, ?_⟩
              have hmin := min_le_right N m
              omega)]
          · have him : ¬ i' ≤ m := by
              intro hle
              exact hc (le_min hi' hle)
            rw [if_neg hc, if_neg (show ¬ (m + 1 ≠ 0 ∧ i' ≤ m) by tauto),
              if_neg (show ¬ i' ≤ m - 1 by omega)]
        · intro i'' hi'' u'' hu''
          rw [upd i'' hi'' u'' hu'']
          simp only [Nat.sub_self]
          by_cases hc : i'' = 0 ∧ u'' = 0
          · obtain ⟨rfl, rfl⟩ := hc
            rw [if_pos (⟨rfl, rfl⟩ : (0:ℕ) = 0 ∧ (0:ℕ) = 0), if_pos (le_refl 0)]
            simp only [Nat.cast_zero]
            rw [pSpec_base 0 m 0 (Or.inl rfl) (by omega)]
            simp
          · rw [if_neg hc]
            by_cases hzero : i'' = 0
            · subst hzero
              have hu0 : u'' ≠ 0 := fun h' => hc ⟨rfl, h'⟩
              rw [if_pos (show m ≠ 0 ∧ (0:ℕ) ≤ m - 1 by omega), if_pos (le_refl 0)]
              rw [pSpec_base 0 (m - 1) u'' (Or.inl rfl) (by omega),
                pSpec_base 0 m u'' (Or.inl rfl) (by omega)]
              rw [if_neg (show ¬ ((u'' : ℤ) = 0) by exact_mod_cast hu0),
                if_neg (show ¬ ((u'' : ℤ) = 0) by exact_mod_cast hu0)]
            · rw [if_neg (show ¬ i'' ≤ 0 by omega)]
              by_cases hc2 : m ≠ 0 ∧ i'' ≤ m - 1
              · rw [if_pos hc2, if_pos (show i'' ≤ m - 1 by omega)]
              · rw [if_neg hc2, if_neg (show ¬ i'' ≤ m - 1 by omega)]

/-- The tie-free table is the Mann–Whitney recurrence: entry `u ≤ U` of
`d.p U` is `p_{N1,N2}(u)`. -/
lemma p_table (d : UDist) (U u : ℕ) (h : u ≤ U) :
    d.p U u = pSpec d.N1 d.N2 (u : ℤ) := by
  have base := pOuter_spec (min d.N1 d.N2) U (max d.N1 d.N2 + 1) 0 (max d.N1 d.N2)
    (fun _ _ => 0) (by omega) (by omega)
    (by
      intro i _ u' _
      rw [if_neg (by omega)])
    (min d.N1 d.N2) le_rfl u h
  rw [UDist.p, base, if_pos (by omega)]
  rcases le_total d.N1 d.N2 with hle | hle
  · rw [min_eq_left hle, max_eq_right hle]
  · rw [min_eq_right hle, max_eq_left hle]
    exact pSpec_symm d.N2 d.N1 u

/-! ## Hypergeometric distribution (modelled from the spec) -/

/-- Modelled from the spec: `HypergeometicDist` — its defining source file is
not under `src/`; only its callers in `udist.go` are.  Spec §4.3: parameters
`(N, K, Draws)`; support `max(0, Draws+K−N) ≤ k ≤ min(Draws, K)`. -/
structure HypergeometicDist where
  N : ℕ
  K : ℕ
  Draws : ℕ

/-- Modelled from the spec: `pmf(k) = C(K,k)·C(N−K,D−k) / C(N,D)`, zero outside
the support (evaluated here exactly over `ℚ` instead of in log space). -/
def HypergeometicDist.PMF (d : HypergeometicDist) (k : ℤ) : ℚ :=
  if max 0 ((d.Draws : ℤ) + d.K - d.N) ≤ k ∧ k ≤ min (d.Draws : ℤ) (d.K : ℤ) then
    (Nat.choose d.K k.toNat * Nat.choose (d.N - d.K) (d.Draws - k.toNat) : ℚ) /
      (Nat.choose d.N d.Draws : ℚ)
  else 0

/-- Modelled from the spec: `cdf(k)` is the sum of `pmf(i)` for `i` in the
support with `i ≤ ⌊k⌋` (all call sites in `udist.go` pass integers). -/
def HypergeometicDist.CDF (d : HypergeometicDist) (x : ℤ) : ℚ :=
  ∑ i ∈ Finset.range (min d.Draws d.K + 1), if (i : ℤ) ≤ x then d.PMF i else 0

/-! ## The tied Mann–Whitney distribution (`makeUmemo` of `udist.go`) -/

/-- Key of the `makeUmemo` memoization table: sample size `n1` and `2*U`. -/
structure ukey where
  n1 : ℕ
  twoU : ℤ
deriving DecidableEq

/-- The `a` coefficients of `makeUmemo`: `a[1] = t[0]`,
`a[k] = a[k-1] + t[k-2] + t[k-1]` for `k ≥ 2` (`a[0]` unused). -/
def aCoef (t : List ℕ) : ℕ → ℕ
  | 0 => 0
  | 1 => t.getD 0 0
  | k + 2 => aCoef t (k + 1) + t.getD k 0 + t.getD (k + 1) 0

/-- `twoUmin`: the minimum reachable `2U` for prefix length `K` and first-sample
size `n1`, by a greedy walk assigning ranks from the first tie group up. -/
def twoUmin (K n1 : ℕ) (t : List ℕ) (a : ℕ → ℕ) : ℤ :=
  (((List.range' 1 K).foldl
    (fun (st : ℕ × ℤ) (k : ℕ) =>
      let twoU_k := min st.1 (t.getD (k - 1) 0)
      (st.1 - twoU_k, st.2 + (twoU_k : ℤ) * (a k : ℤ)))
    (n1, -(n1 : ℤ) * (n1 : ℤ)))).2

/-- `twoUmax`: the maximum reachable `2U`, by the greedy walk from the last tie
group down. -/
def twoUmax (K n1 : ℕ) (t : List ℕ) (a : ℕ → ℕ) : ℤ :=
  (((List.range' 1 K).reverse.foldl
    (fun (st : ℕ × ℤ) (k : ℕ) =>
      let twoU_k := min st.1 (t.getD (k - 1) 0)
      (st.1 - twoU_k, st.2 + (twoU_k : ℤ) * (a k : ℤ)))
    (n1, -(n1 : ℤ) * (n1 : ℤ)))).2

/-- The probabilities filled in by `makeUmemo` (`pr[k][key]`), as a total
function per prefix length `k`.  The Go code stores values only at the keys
propagated down from the root query `(n1, 2U)`, but each guarded lookup in the
fill phase hits exactly a stored key and the stored value depends only on the
key and on level `k-1`, so the value at the root query agrees with this
function.  `k = 2` is the hypergeometric base case (with Go's truncating
integer division for the CDF argument); `k ≥ 3` sums over `r_k`, treating a
sub-probability above `twoUmax` as 1 (only the pmf contributes) and one below
`twoUmin` as 0, as in the code.  (`pr[0]`, `pr[1]` are unused: Go panics when
`K < 2`.) -/
def uMemoVal (t : List ℕ) : ℕ → ukey → ℚ
  | 0, _ => 0
  | 1, _ => 0
  | 2, key =>
    let N_2 := t.getD 0 0 + t.getD 1 0
    let x := (key.twoU - (key.n1 : ℤ) * ((t.getD 0 0 : ℤ) - (key.n1 : ℤ))).tdiv (N_2 : ℤ)
    HypergeometicDist.CDF ⟨N_2, t.getD 1 0, key.n1⟩ x
  | k + 3, key =>
    let tsum := (t.take (k + 2)).sum
    let dist : HypergeometicDist := ⟨tsum + t.getD (k + 2) 0, t.getD (k + 2) 0, key.n1⟩
    let rkLow := key.n1 - tsum
    let rkHigh := min key.n1 (t.getD (k + 2) 0)
    ∑ rk ∈ Finset.Icc rkLow rkHigh,
      (let twoU_k := key.twoU - (rk : ℤ) * ((aCoef t (k + 3) : ℤ) - 2 * (key.n1 : ℤ) + rk)
       let n1_k := key.n1 - rk
       if twoUmin (k + 2) n1_k t (aCoef t) ≤ twoU_k ∧
           twoU_k ≤ twoUmax (k + 2) n1_k t (aCoef t) then
         uMemoVal t (k + 2) ⟨n1_k, twoU_k⟩ * dist.PMF (rk : ℤ)
       else if twoUmax (k + 2) n1_k t (aCoef t) < twoU_k then
         dist.PMF (rk : ℤ)
       else 0)

/-- Go's conversion `int(q)` from `float64`: truncation toward zero. -/
def goInt (q : ℚ) : ℤ := q.num.tdiv (q.den : ℤ)

/-- `UDist.CDF` of `udist.go`: 0 below 0, 1 at and above `N1·N2`; with ties the
`makeUmemo` probability at `(N1, 2U)`; without ties the prefix sum of the
`UDist.p` table, summing the smaller symmetric tail (`flip`) when
`⌊U⌋ ≥ (N1·N2+1)/2` and subtracting from 1. -/
def UDist.CDF (d : UDist) (U : ℚ) : ℚ :=
  if U < 0 then 0
  else if ((d.N1 * d.N2 : ℕ) : ℚ) ≤ U then 1
  else if d.hasTies then
    uMemoVal d.T d.T.length ⟨d.N1, goInt (2 * U)⟩
  else
    let Ui : ℕ := (Int.floor U).toNat
    let flip := (d.N1 * d.N2 + 1) / 2 ≤ Ui
    let Ui' := if flip then d.N1 * d.N2 - Ui - 1 else Ui
    let pdfs := d.p Ui'
    let psum := ∑ u ∈ Finset.range (Ui' + 1), pdfs u
    if flip then 1 - psum else psum

/-- `UDist.PMF` of `udist.go`: 0 below 0 and at or above `N1·N2 + 0.5`; with
ties the difference of the two `makeUmemo` CDF values at `2U` and `2U - 1`;
without ties the table entry `p(⌊U⌋)[⌊U⌋]`. -/
def UDist.PMF (d : UDist) (U : ℚ) : ℚ :=
  if U < 0 ∨ 1/2 + ((d.N1 * d.N2 : ℕ) : ℚ) ≤ U then 0
  else if d.hasTies then
    uMemoVal d.T d.T.length ⟨d.N1, goInt (2 * U)⟩ -
      uMemoVal d.T d.T.length ⟨d.N1, goInt (2 * U) - 1⟩
  else
    let Ui : ℕ := (Int.floor U).toNat
    d.p Ui Ui

/-- `UDist.Step` of `udist.go`: always `0.5`. -/
def UDist.Step (_ : UDist) : ℚ := 1/2

/-- `UDist.Bounds` of `udist.go`: `(0, N1·N2)`. -/
def UDist.Bounds (d : UDist) : ℚ × ℚ := (0, ((d.N1 * d.N2 : ℕ) : ℚ))

/-! ## Claims C1–C4 -/

/-- **C1**: for all sample sizes `N1, N2` and every `u` with `0 ≤ u ≤ U`, the
tie-free table computed by `UDist.p` satisfies the Mann–Whitney recurrence:
`UDist{N1,N2}.p(U)[u]` equals the null probability `p_{N1,N2}(u)` defined by
the recurrence `p_{n,m}(u) = (n·p_{n-1,m}(u-m) + m·p_{n,m-1}(u))/(n+m)` with
`p_{n,m}(u) = 0` for `u < 0`, `p_{0,m}(0) = p_{n,0}(0) = 1/C(n+m,n)` and 0 for
`u > 0` (= `pSpec`), the table being built only for `n ≤ m` via the symmetry
`p_{n,m} = p_{m,n}` (`pSpec_symm`). -/
theorem C1_udist_p_matches_recurrence (N1 N2 U u : ℕ) (h : u ≤ U) :
    UDist.p ⟨N1, N2, []⟩ U u = pSpec N1 N2 (u : ℤ) :=
  p_table ⟨N1, N2, []⟩ U u h

theorem C1_witness :
    2 ≤ 4 ∧ UDist.p ⟨2, 2, []⟩ 4 2 = pSpec 2 2 (2 : ℤ) :=
  ⟨by norm_num, C1_udist_p_matches_recurrence 2 2 4 2 (by norm_num)⟩

/-- **C2**: for every `N1, N2 ≥ 1` with an empty tie vector and every `U` with
`0 ≤ ⌊U⌋ < N1·N2`, `UDist.CDF U` equals the direct prefix sum of
`p_{N1,N2}(0..⌊U⌋)`; in particular the optimized branch taken when
`⌊U⌋ ≥ (N1·N2+1)/2`, which sums the symmetric tail up to `N1·N2 − ⌊U⌋ − 1`
and subtracts from 1, returns the same value. -/
theorem C2_udist_cdf_prefix_sum (N1 N2 : ℕ) ( _hN1 : 1 ≤ N1) ( _hN2 : 1 ≤ N2) (U : ℚ)
    (h0 : 0 ≤ ⌊U⌋) (hlt : ⌊U⌋ < (N1 * N2 : ℕ)) :
    UDist.CDF ⟨N1, N2, []⟩ U =
      ∑ u ∈ Finset.range ((⌊U⌋).toNat + 1), pSpec N1 N2 (u : ℤ) := by
  have hU0 : (0:ℚ) ≤ U := le_trans (by exact_mod_cast h0) (Int.floor_le U)
  have hUlt : U < ((N1 * N2 : ℕ) : ℚ) := by
    have h1 := Int.lt_floor_add_one U
    have h2 : ((⌊U⌋ : ℤ) : ℚ) + 1 ≤ ((N1 * N2 : ℕ) : ℚ) := by exact_mod_cast hlt
    linarith
  have hUiLt : (⌊U⌋).toNat < N1 * N2 := by omega
  rw [UDist.CDF, if_neg (not_lt.mpr hU0), if_neg (not_le.mpr hUlt),
    if_neg (show ¬ (UDist.hasTies ⟨N1, N2, []⟩ = true) by simp [UDist.hasTies])]
  simp only
  by_cases hflip : (N1 * N2 + 1) / 2 ≤ (⌊U⌋).toNat
  · rw [if_pos hflip, if_pos hflip]
    have htab : ∀ u ∈ Finset.range (N1 * N2 - (⌊U⌋).toNat - 1 + 1),
        UDist.p ⟨N1, N2, []⟩ (N1 * N2 - (⌊U⌋).toNat - 1) u = pSpec N1 N2 (u : ℤ) := by
      intro u hu
      simp only [Finset.mem_range] at hu
      exact p_table ⟨N1, N2, []⟩ _ u (by omega)
    rw [Finset.sum_congr rfl htab,
      show N1 * N2 - (⌊U⌋).toNat - 1 + 1 = N1 * N2 - (⌊U⌋).toNat by omega]
    exact pSpec_flip N1 N2 (⌊U⌋).toNat hUiLt
  · rw [if_neg hflip, if_neg hflip]
    refine Finset.sum_congr rfl ?_
    intro u hu
    simp only [Finset.mem_range] at hu
    exact p_table ⟨N1, N2, []⟩ _ u (by omega)

theorem C2_witness :
    1 ≤ (2:ℕ) ∧ 0 ≤ ⌊(3 : ℚ)⌋ ∧ ⌊(3 : ℚ)⌋ < ((2 * 2 : ℕ) : ℤ) ∧
      UDist.CDF ⟨2, 2, []⟩ 3 = ∑ u ∈ Finset.range ((⌊(3:ℚ)⌋).toNat + 1), pSpec 2 2 (u : ℤ) :=
  ⟨by norm_num, by norm_num, by norm_num,
    C2_udist_cdf_prefix_sum 2 2 (by norm_num) (by norm_num) 3 (by norm_num) (by norm_num)⟩

/-- **C3**: for every `N1, N2` and every tie vector `T` (empty or not),
`UDist.CDF` returns 0 for every argument `U < 0` and 1 for every `U ≥ N1·N2`;
in particular `cdf(N1·N2) = 1` and `cdf(−ε) = 0` for every `ε > 0`. -/
theorem C3_udist_cdf_boundaries (d : UDist) (U ε : ℚ) (hε : 0 < ε) :
    (U < 0 → d.CDF U = 0) ∧ (((d.N1 * d.N2 : ℕ) : ℚ) ≤ U → d.CDF U = 1) ∧
      d.CDF ((d.N1 * d.N2 : ℕ) : ℚ) = 1 ∧ d.CDF (-ε) = 0 := by
  have hb : ∀ V : ℚ, ((d.N1 * d.N2 : ℕ) : ℚ) ≤ V → d.CDF V = 1 := by
    intro V hV
    have hV0 : ¬ V < 0 := by
      have : (0:ℚ) ≤ ((d.N1 * d.N2 : ℕ) : ℚ) := by positivity
      linarith
    rw [UDist.CDF, if_neg hV0, if_pos hV]
  refine ⟨fun h => by rw [UDist.CDF, if_pos h], hb U, hb _ le_rfl,
    by rw [UDist.CDF, if_pos (by linarith)]⟩

theorem C3_witness :
    (0:ℚ) < 1 ∧
      ((5 : ℚ) < 0 → UDist.CDF ⟨2, 2, [2, 2]⟩ 5 = 0) ∧
      (((2 * 2 : ℕ) : ℚ) ≤ 5 → UDist.CDF ⟨2, 2, [2, 2]⟩ 5 = 1) ∧
      UDist.CDF ⟨2, 2, [2, 2]⟩ ((2 * 2 : ℕ) : ℚ) = 1 ∧
      UDist.CDF ⟨2, 2, [2, 2]⟩ (-1) = 0 :=
  ⟨by norm_num, C3_udist_cdf_boundaries ⟨2, 2, [2, 2]⟩ 5 1 (by norm_num)⟩

/-- **C4** (failing input for the claim "PMF(U) = CDF(U) − CDF(U − 0.5) on the
support"): for `UDist{N1:2, N2:2, T:[2,2]}` at `U = 0` (which the distribution
attains with probability 1/6), `PMF(0)` evaluates to 0 — the `makeUmemo` query
at `twoU = −1` computes its hypergeometric-CDF argument with Go's truncating
division, `(−1).tdiv 4 = 0`, yielding `Pr[2U ≤ 0] = 1/6` instead of 0 — while
`CDF(0) − CDF(−0.5) = 1/6`.  `Step` is 0.5 as claimed. -/
theorem C4_pmf_cdf_difference_failing_input :
    UDist.PMF ⟨2, 2, [2, 2]⟩ 0 = 0 ∧
      UDist.CDF ⟨2, 2, [2, 2]⟩ 0 - UDist.CDF ⟨2, 2, [2, 2]⟩ (0 - 1/2) = 1/6 ∧
      UDist.Step ⟨2, 2, [2, 2]⟩ = 1/2 := by
  have hG : goInt (0:ℚ) = 0 := by norm_num [goInt]
  have ht1 : ((-1 : ℤ)).tdiv 4 = 0 := by decide
  have ht0 : ((0 : ℤ)).tdiv 4 = 0 := by decide
  have hch : Nat.choose 4 2 = 6 := by decide
  refine ⟨?_, ?_, rfl⟩
  · norm_num [UDist.PMF, UDist.hasTies, uMemoVal, hG, HypergeometicDist.CDF,
      HypergeometicDist.PMF, Finset.sum_range_succ, ht1, ht0, hch]
  · norm_num [UDist.CDF, UDist.hasTies, uMemoVal, hG, HypergeometicDist.CDF,
      HypergeometicDist.PMF, Finset.sum_range_succ, ht1, ht0, hch]

/-! ## The regularized incomplete beta function (`tdist.go`)

`math.Exp`, `math.Log` and `math.Lgamma` are abstract parameters
(`mexp`, `mlog`, `mlg : ℚ → ℚ`); the continued fraction `betacf` is exact
rational arithmetic.  The panic on non-convergence (and on `x` outside
`[0,1]`) is an `Except.error`. -/

/-- `math.SmallestNonzeroFloat64` = 2^(-1074). -/
def smallestNonzeroFloat64 : ℚ := 1 / 2 ^ 1074

/-- The convergence tolerance of `betacf`: `3e-14`. -/
def betacfEpsilon : ℚ := 3 / 10 ^ 14

/-- `raiseZero` of `betacf`: raise a denominator that is closer to zero than
the smallest positive normal to that value. -/
def raiseZero (z : ℚ) : ℚ :=
  if |z| < smallestNonzeroFloat64 then smallestNonzeroFloat64 else z

/-- One even-plus-odd iteration of the Lentz recurrence in `betacf`, followed
by either convergence (`.ok`) or continuation; `remaining` is the number of
iterations left out of 200. -/
def betacfLoop (x a b : ℚ) : ℕ → ℕ → ℚ → ℚ → ℚ → Except String ℚ
  | _, 0, _, _, _ => .error "betainc: a or b too big; failed to converge"
  | m, remaining + 1, c, d, h =>
    let mf : ℚ := (m : ℚ)
    let numerEven := mf * (b - mf) * x / ((a + 2 * mf - 1) * (a + 2 * mf))
    let d1 := 1 / raiseZero (1 + numerEven * d)
    let c1 := raiseZero (1 + numerEven / c)
    let h1 := h * (d1 * c1)
    let numerOdd := -(a + mf) * (a + b + mf) * x / ((a + 2 * mf) * (a + 2 * mf + 1))
    let d2 := 1 / raiseZero (1 + numerOdd * d1)
    let c2 := raiseZero (1 + numerOdd / c1)
    let hfac := d2 * c2
    let h2 := h1 * hfac
    if |hfac - 1| < betacfEpsilon then .ok h2
    else betacfLoop x a b (m + 1) remaining c2 d2 h2

/-- `betacf` of `tdist.go`: the continued fraction component of the
regularized incomplete beta function, iterated up to 200 steps. -/
def betacf (x a b : ℚ) : Except String ℚ :=
  let c : ℚ := 1
  let d : ℚ := 1 / raiseZero (1 - (a + b) * x / (a + 1))
  betacfLoop x a b 1 200 c d d

/-- `betainc` of `tdist.go`: the regularized incomplete beta function
`Iₓ(a,b)`, with the prefactor computed through the abstract `exp`/`log`/
`lgamma` functions. -/
def betainc (mexp mlog mlg : ℚ → ℚ) (x a b : ℚ) : Except String ℚ :=
  if x < 0 ∨ 1 < x then .error "betainc: x must be in [0, 1]"
  else
    let bt : ℚ :=
      if 0 < x ∧ x < 1 then
        mexp (mlg (a + b) - mlg a - mlg b + a * mlog x + b * mlog (1 - x))
      else 0
    if x < (a + 1) / (a + b + 2) then
      (betacf x a b).map (fun cf => bt * cf / a)
    else
      (betacf (1 - x) b a).map (fun cf => 1 - bt * cf / b)

/-- At `x = 0` the continued fraction converges on the first iteration to 1. -/
lemma betacf_zero (a b : ℚ) : betacf 0 a b = .ok 1 := by
  have hr1 : raiseZero 1 = 1 := by
    rw [raiseZero, if_neg]
    rw [abs_one, not_lt, smallestNonzeroFloat64]
    norm_num
  have loop1 : ∀ r : ℕ, betacfLoop 0 a b 1 (r + 1) 1 1 1 = .ok 1 := by
    intro r
    simp only [betacfLoop]
    norm_num [hr1, betacfEpsilon]
  rw [betacf]
  simp only [mul_zero, zero_div, sub_zero, hr1, one_div_one]
  exact loop1 199

/-! ## Claim C5 -/

/-- **C5**: for all `a, b > 0`, `betainc(x,a,b)` returns exactly 0 at `x = 0`
and exactly 1 at `x = 1`; for `0 < x < 1` it returns `F·cf(x,a,b)/a` when
`x < (a+1)/(a+b+2)` and `1 − F·cf(1−x,b,a)/b` otherwise, with
`F = exp(lgamma(a+b) − lgamma(a) − lgamma(b) + a·log x + b·log(1−x))` and `cf`
the continued fraction iterated up to 200 steps with tolerance `3e-14`
(`betacf`; a failing expansion propagates as the panic value). -/
theorem C5_betainc_structure (mexp mlog mlg : ℚ → ℚ) (a b x : ℚ)
    (ha : 0 < a) (hb : 0 < b) :
    betainc mexp mlog mlg 0 a b = .ok 0 ∧
    betainc mexp mlog mlg 1 a b = .ok 1 ∧
    (0 < x → x < 1 →
      betainc mexp mlog mlg x a b =
        (if x < (a + 1) / (a + b + 2) then
          (betacf x a b).map
            (fun cf => mexp (mlg (a + b) - mlg a - mlg b + a * mlog x + b * mlog (1 - x))
              * cf / a)
        else
          (betacf (1 - x) b a).map
            (fun cf => 1 - mexp (mlg (a + b) - mlg a - mlg b + a * mlog x + b * mlog (1 - x))
              * cf / b))) := by
  refine ⟨?_, ?_, fun hx0 hx1 => ?_⟩
  · rw [betainc, if_neg (by norm_num)]
    simp only [if_neg (show ¬ ((0:ℚ) < 0 ∧ (0:ℚ) < 1) by norm_num)]
    rw [if_pos (show (0:ℚ) < (a + 1) / (a + b + 2) from div_pos (by linarith) (by linarith)),
      betacf_zero]
    simp [Except.map, ha.ne']
  · rw [betainc, if_neg (by norm_num)]
    simp only [if_neg (show ¬ ((0:ℚ) < 1 ∧ (1:ℚ) < 1) by norm_num)]
    rw [if_neg (show ¬ (1:ℚ) < (a + 1) / (a + b + 2) by
        rw [not_lt, div_le_one (by linarith)]
        linarith),
      show (1:ℚ) - 1 = 0 from by norm_num, betacf_zero]
    simp [Except.map, hb.ne']
  · rw [betainc, if_neg (by push_neg; constructor <;> linarith)]
    simp only [if_pos (⟨hx0, hx1⟩ : 0 < x ∧ x < 1)]

/-- A hypothesis-discharging instance of `C5_betainc_structure` at
`a = b = 1`, `x = 1/2`. -/
theorem C5_witness :
    (0:ℚ) < 1 ∧
      (betainc (fun _ => 0) (fun _ => 0) (fun _ => 0) 0 1 1 = .ok 0 ∧
       betainc (fun _ => 0) (fun _ => 0) (fun _ => 0) 1 1 1 = .ok 1 ∧
       ((0:ℚ) < 1/2 → (1:ℚ)/2 < 1 →
         betainc (fun _ => 0) (fun _ => 0) (fun _ => 0) (1/2) 1 1 =
           (if (1:ℚ)/2 < (1 + 1) / (1 + 1 + 2) then
             (betacf (1/2) 1 1).map
               (fun cf => (fun (_ : ℚ) => (0:ℚ))
                 ((fun (_ : ℚ) => (0:ℚ)) (1 + 1) - (fun (_ : ℚ) => (0:ℚ)) 1
                   - (fun (_ : ℚ) => (0:ℚ)) 1 + 1 * (fun (_ : ℚ) => (0:ℚ)) (1/2)
                   + 1 * (fun (_ : ℚ) => (0:ℚ)) (1 - 1/2)) * cf / 1)
           else
             (betacf (1 - 1/2) 1 1).map
               (fun cf => 1 - (fun (_ : ℚ) => (0:ℚ))
                 ((fun (_ : ℚ) => (0:ℚ)) (1 + 1) - (fun (_ : ℚ) => (0:ℚ)) 1
                   - (fun (_ : ℚ) => (0:ℚ)) 1 + 1 * (fun (_ : ℚ) => (0:ℚ)) (1/2)
                   + 1 * (fun (_ : ℚ) => (0:ℚ)) (1 - 1/2)) * cf / 1)))) :=
  ⟨by norm_num,
    C5_betainc_structure (fun _ => 0) (fun _ => 0) (fun _ => 0) 1 1 (1/2)
      (by norm_num) (by norm_num)⟩

/-! ## Claim C6 -/

/-- The `x > 0` branch of `tCDF.At`:
`1 − 0.5·betainc(v/(v+x²), v/2, 1/2)`. -/
def tCDFAtPos (mexp mlog mlg : ℚ → ℚ) (v x : ℚ) : Except String ℚ :=
  (betainc mexp mlog mlg (v / (v + x * x)) (v / 2) (1 / 2)).map (fun r => 1 - 1 / 2 * r)

/-- `tCDF.At` of `tdist.go`: `0.5` at 0, the incomplete-beta formula for
`x > 0`, and `1 − At(−x)` for `x < 0` (the recursive call hits the `x > 0`
branch, inlined here; the final NaN case of the Go code is unreachable over
`ℚ`). -/
def tCDFAt (mexp mlog mlg : ℚ → ℚ) (v x : ℚ) : Except String ℚ :=
  if x = 0 then .ok (1 / 2)
  else if 0 < x then tCDFAtPos mexp mlog mlg v x
  else (tCDFAtPos mexp mlog mlg v (-x)).map (fun y => 1 - y)

/-- Modelled from the spec: the two-sided p-value `P = 2·min(F_v(T), 1−F_v(T))`
(§4.5; `ttest.go`, which computes it from `tCDF.At`, is not under `src/`). -/
def pTwoSided (mexp mlog mlg : ℚ → ℚ) (v T : ℚ) : Except String ℚ :=
  (tCDFAt mexp mlog mlg v T).map (fun f => 2 * min f (1 - f))

lemma tCDFAt_of_pos (mexp mlog mlg : ℚ → ℚ) (v x : ℚ) (hx : 0 < x) :
    tCDFAt mexp mlog mlg v x = tCDFAtPos mexp mlog mlg v x := by
  rw [tCDFAt, if_neg (by linarith), if_pos hx]

lemma tCDFAt_of_neg (mexp mlog mlg : ℚ → ℚ) (v x : ℚ) (hx : x < 0) :
    tCDFAt mexp mlog mlg v x = (tCDFAtPos mexp mlog mlg v (-x)).map (fun y => 1 - y) := by
  rw [tCDFAt, if_neg (by linarith), if_neg (by linarith)]

/-- **C6**: the Student-t CDF implementation satisfies `F_v(0) = 0.5` and
`F_v(t) = 1 − F_v(−t)` for every `t < 0` (and every `v`); consequently the
two-sided p-value `P = 2·min(F_v(T), 1 − F_v(T))` is symmetric in the sign of
`T`: `P(−T, v) = P(T, v)` (equal even when `betainc` fails, since both sides
make the same `betainc` call). -/
theorem C6_tcdf_pvalue_symmetry (mexp mlog mlg : ℚ → ℚ) (v T t : ℚ) (ht : t < 0) :
    tCDFAt mexp mlog mlg v 0 = .ok (1 / 2) ∧
    tCDFAt mexp mlog mlg v t = (tCDFAt mexp mlog mlg v (-t)).map (fun y => 1 - y) ∧
    pTwoSided mexp mlog mlg v (-T) = pTwoSided mexp mlog mlg v T := by
  refine ⟨by rw [tCDFAt, if_pos rfl], ?_, ?_⟩
  · rw [tCDFAt_of_neg mexp mlog mlg v t ht, tCDFAt_of_pos mexp mlog mlg v (-t) (by linarith)]
  · rcases lt_trichotomy T 0 with hT | hT | hT
    · rw [pTwoSided, pTwoSided, tCDFAt_of_pos mexp mlog mlg v (-T) (by linarith),
        tCDFAt_of_neg mexp mlog mlg v T hT]
      cases tCDFAtPos mexp mlog mlg v (-T) with
      | error e => rfl
      | ok y =>
        show Except.ok (2 * min y (1 - y)) = Except.ok (2 * min (1 - y) (1 - (1 - y)))
        rw [show (1:ℚ) - (1 - y) = y from by ring, min_comm]
    · subst hT
      rw [neg_zero]
    · rw [pTwoSided, pTwoSided, tCDFAt_of_neg mexp mlog mlg v (-T) (by linarith), neg_neg,
        tCDFAt_of_pos mexp mlog mlg v T hT]
      cases tCDFAtPos mexp mlog mlg v T with
      | error e => rfl
      | ok y =>
        show Except.ok (2 * min (1 - y) (1 - (1 - y))) = Except.ok (2 * min y (1 - y))
        rw [show (1:ℚ) - (1 - y) = y from by ring, min_comm]

/-- A hypothesis-discharging instance of `C6_tcdf_pvalue_symmetry` at `v = 3`,
`T = 2`, `t = -1`. -/
theorem C6_witness :
    (-1 : ℚ) < 0 ∧
      (tCDFAt (fun _ => 0) (fun _ => 0) (fun _ => 0) 3 0 = .ok (1 / 2) ∧
       tCDFAt (fun _ => 0) (fun _ => 0) (fun _ => 0) 3 (-1) =
         (tCDFAt (fun _ => 0) (fun _ => 0) (fun _ => 0) 3 (-(-1))).map (fun y => 1 - y) ∧
       pTwoSided (fun _ => 0) (fun _ => 0) (fun _ => 0) 3 (-2) =
         pTwoSided (fun _ => 0) (fun _ => 0) (fun _ => 0) 3 2) :=
  ⟨by norm_num,
    C6_tcdf_pvalue_symmetry (fun _ => 0) (fun _ => 0) (fun _ => 0) 3 2 (-1) (by norm_num)⟩

/-! ## Claim C7: `bisect` of `alg.go` -/

/-- `sign` of `alg.go`: -1 if x < 0, 0 if x == 0, 1 if x > 0 (no NaN in `ℚ`). -/
def sign (x : ℚ) : ℤ :=
  if x = 0 then 0 else if x < 0 then -1 else 1

/-- Result of `bisect`: Go's `(x, bool)` pair, the bracketing panic, or
exhaustion of the fuel that stands in for Go's unbounded `for` loop. -/
inductive BisectResult where
  | ok (x : ℚ) (converged : Bool)
  | bracketError
  | outOfFuel
deriving DecidableEq

/-- The `for` loop of `bisect`. -/
def bisectLoop (f : ℚ → ℚ) : ℕ → ℚ → ℚ → ℚ → ℚ → ℚ → BisectResult
  | 0, _, _, _, _, _ => .outOfFuel
  | fuel + 1, low, high, flow, fhigh, tolerance =>
    let mid := (high + low) / 2
    let fmid := f mid
    if -tolerance ≤ fmid ∧ fmid ≤ tolerance then .ok mid true
    else if mid = high ∨ mid = low then .ok mid false
    else if sign fmid = sign flow then bisectLoop f fuel mid high fmid fhigh tolerance
    else bisectLoop f fuel low mid flow fmid tolerance

/-- `bisect` of `alg.go`: endpoint tolerance checks, the bracketing panic,
then the loop. -/
def bisect (f : ℚ → ℚ) (low high tolerance : ℚ) (fuel : ℕ) : BisectResult :=
  let flow := f low
  let fhigh := f high
  if -tolerance ≤ flow ∧ flow ≤ tolerance then .ok low true
  else if -tolerance ≤ fhigh ∧ fhigh ≤ tolerance then .ok high true
  else if sign flow = sign fhigh then .bracketError
  else bisectLoop f fuel low high flow fhigh tolerance

lemma bisectLoop_ne_bracketError (f : ℚ → ℚ) : ∀ fuel low high flow fhigh tol,
    bisectLoop f fuel low high flow fhigh tol ≠ .bracketError := by
  intro fuel
  induction fuel with
  | zero =>
    intro low high flow fhigh tol
    simp [bisectLoop]
  | succ fuel' ih =>
    intro low high flow fhigh tol
    rw [bisectLoop]
    split_ifs
    · simp
    · simp
    · exact ih _ _ _ _ _
    · exact ih _ _ _ _ _

lemma bisectLoop_ok_true (f : ℚ → ℚ) : ∀ fuel low high flow fhigh tol x,
    bisectLoop f fuel low high flow fhigh tol = .ok x true →
    -tol ≤ f x ∧ f x ≤ tol := by
  intro fuel
  induction fuel with
  | zero =>
    intro low high flow fhigh tol x h
    simp [bisectLoop] at h
  | succ fuel' ih =>
    intro low high flow fhigh tol x h
    rw [bisectLoop] at h
    split_ifs at h with h1 h2
    · rw [BisectResult.ok.injEq] at h
      obtain ⟨rfl, -⟩ := h
      exact h1
    · rw [BisectResult.ok.injEq] at h
      exact absurd h.2 (by simp)
    · exact ih _ _ _ _ _ _ h
    · exact ih _ _ _ _ _ _ h

lemma bisectLoop_ok_false (f : ℚ → ℚ) : ∀ fuel low high flow fhigh tol x,
    bisectLoop f fuel low high flow fhigh tol = .ok x false →
    ¬ (-tol ≤ f x ∧ f x ≤ tol) := by
  intro fuel
  induction fuel with
  | zero =>
    intro low high flow fhigh tol x h
    simp [bisectLoop] at h
  | succ fuel' ih =>
    intro low high flow fhigh tol x h
    rw [bisectLoop] at h
    split_ifs at h with h1 h2
    · rw [BisectResult.ok.injEq] at h
      exact absurd h.2 (by simp)
    · rw [BisectResult.ok.injEq] at h
      obtain ⟨rfl, -⟩ := h
      exact h1
    · exact ih _ _ _ _ _ _ h
    · exact ih _ _ _ _ _ _ h

/-- **C7** (counterexample): the claim "bisect fails with a bracketing error
whenever sign(f(lo)) == sign(f(hi))" is false: for the constant zero function
on `[0,1]` with tolerance 0 the two signs are equal, yet `bisect` returns
`(lo, true)` because the endpoint-tolerance checks run first. -/
theorem C7_bisect_counterexample :
    sign ((fun _ : ℚ => (0:ℚ)) 0) = sign ((fun _ : ℚ => (0:ℚ)) 1) ∧
      bisect (fun _ : ℚ => 0) 0 1 0 5 = .ok 0 true := by
  constructor
  · rfl
  · rw [bisect]
    norm_num

/-- **C7** (amended): `bisect(f, lo, hi, tol)` fails with a bracketing error
exactly when `sign(f(lo)) == sign(f(hi))` **and neither endpoint value lies
within `[-tol, tol]`** (when one does, that endpoint is returned with `true`
immediately); any `(x, true)` it returns satisfies `|f(x)| ≤ tol`, and any
`(x, false)` — returned when the midpoint collapses onto an endpoint — does
not. -/
theorem C7_bisect_amended (f : ℚ → ℚ) (lo hi tol : ℚ) (fuel : ℕ) :
    (bisect f lo hi tol fuel = .bracketError ↔
      ¬ (-tol ≤ f lo ∧ f lo ≤ tol) ∧ ¬ (-tol ≤ f hi ∧ f hi ≤ tol) ∧
        sign (f lo) = sign (f hi)) ∧
    (∀ x, bisect f lo hi tol fuel = .ok x true → -tol ≤ f x ∧ f x ≤ tol) ∧
    (∀ x, bisect f lo hi tol fuel = .ok x false → ¬ (-tol ≤ f x ∧ f x ≤ tol)) := by
  rw [bisect]
  by_cases h1 : -tol ≤ f lo ∧ f lo ≤ tol
  · rw [if_pos h1]
    refine ⟨by simp [h1], ?_, ?_⟩
    · intro x hx
      rw [BisectResult.ok.injEq] at hx
      obtain ⟨rfl, -⟩ := hx
      exact h1
    · intro x hx
      rw [BisectResult.ok.injEq] at hx
      exact absurd hx.2 (by simp)
  · rw [if_neg h1]
    by_cases h2 : -tol ≤ f hi ∧ f hi ≤ tol
    · rw [if_pos h2]
      refine ⟨by simp [h2], ?_, ?_⟩
      · intro x hx
        rw [BisectResult.ok.injEq] at hx
        obtain ⟨rfl, -⟩ := hx
        exact h2
      · intro x hx
        rw [BisectResult.ok.injEq] at hx
        exact absurd hx.2 (by simp)
    · rw [if_neg h2]
      by_cases h3 : sign (f lo) = sign (f hi)
      · rw [if_pos h3]
        refine ⟨by simp [h1, h2, h3], ?_, ?_⟩
        · intro x hx
          cases hx
        · intro x hx
          cases hx
      · rw [if_neg h3]
        refine ⟨?_, ?_, ?_⟩
        · constructor
          · intro hball
            exact absurd hball (bisectLoop_ne_bracketError f fuel lo hi (f lo) (f hi) tol)
          · rintro ⟨-, -, hs⟩
            exact absurd hs h3
        · intro x hx
          exact bisectLoop_ok_true f fuel lo hi (f lo) (f hi) tol x hx
        · intro x hx
          exact bisectLoop_ok_false f fuel lo hi (f lo) (f hi) tol x hx

/-! ## Claim C10: `series` of `alg.go` -/

/-- The `for` loop of `series`: `for n := 0.0; y != yp; n++ { yp = y; y += f(n) }`,
with fuel standing in for the unbounded loop. -/
def seriesLoop (f : ℚ → ℚ) : ℕ → ℚ → ℚ → ℚ → Option ℚ
  | 0, _, _, _ => none
  | fuel + 1, n, y, yp => if y = yp then some y else seriesLoop f fuel (n + 1) (y + f n) y

/-- `series` of `alg.go`: the sum of `f(0), f(1), …` accumulated until the
running sum is unchanged (exactly unchanged, over `ℚ`). -/
def series (f : ℚ → ℚ) (fuel : ℕ) : Option ℚ :=
  seriesLoop f fuel 0 0 1

lemma seriesLoop_spec (f : ℚ → ℚ) (n : ℕ) (hz : f n = 0) (hnz : ∀ k < n, f (k : ℚ) ≠ 0) :
    ∀ fuel j, 1 ≤ j → j ≤ n + 1 → n + 2 - j ≤ fuel →
    seriesLoop f fuel (j : ℚ) (∑ k ∈ Finset.range j, f (k : ℚ))
        (∑ k ∈ Finset.range (j - 1), f (k : ℚ)) =
      some (∑ k ∈ Finset.range n, f (k : ℚ)) := by
  intro fuel
  induction fuel with
  | zero =>
    intro j h1 h2 h3
    omega
  | succ fuel' ih =>
    intro j h1 h2 h3
    have hsum : (∑ k ∈ Finset.range j, f (k : ℚ)) =
        (∑ k ∈ Finset.range (j - 1), f (k : ℚ)) + f ((j - 1 : ℕ) : ℚ) := by
      conv_lhs => rw [show j = (j - 1) + 1 by omega]
      rw [Finset.sum_range_succ]
    rcases Nat.lt_or_ge j (n + 1) with hlt | hge
    · -- j ≤ n : the sums differ because f(j-1) ≠ 0
      rw [seriesLoop, if_neg (by
        rw [hsum]
        intro heq
        exact hnz (j - 1) (by omega) (by linarith))]
      have hstep := ih (j + 1) (by omega) (by omega) (by omega)
      rw [Finset.sum_range_succ] at hstep
      simp only [Nat.add_sub_cancel] at hstep
      rw [show ((j + 1 : ℕ) : ℚ) = (j : ℚ) + 1 from by push_cast; ring] at hstep
      exact hstep
    · -- j = n + 1 : the sums agree because f(n) = 0
      have hj : j = n + 1 := by omega
      subst hj
      rw [seriesLoop, if_pos (by
        simp only [Nat.add_sub_cancel] at hsum ⊢
        rw [hsum, hz, add_zero])]
      simp only [Nat.add_sub_cancel] at hsum ⊢
      rw [hsum, hz, add_zero]

/-- **C10**: `series(f)` returns the partial sum accumulated up to the first
index `n ≥ 0` at which adding `f(n)` leaves the running sum unchanged — not
the full infinite sum; in particular, whenever `f(0) = 0`, `series(f)` returns
0 even if later terms are non-zero. -/
theorem C10_series_stops_at_first_unchanged (f : ℚ → ℚ) (n fuel : ℕ)
    (hz : f n = 0) (hnz : ∀ k < n, f (k : ℚ) ≠ 0) (hfuel : n + 2 ≤ fuel) :
    series f fuel = some (∑ k ∈ Finset.range n, f (k : ℚ)) ∧
    (f 0 = 0 → series f fuel = some 0) := by
  have main : series f fuel = some (∑ k ∈ Finset.range n, f (k : ℚ)) := by
    rw [series]
    obtain ⟨fuel', rfl⟩ : ∃ fuel', fuel = fuel' + 1 := ⟨fuel - 1, by omega⟩
    rw [seriesLoop, if_neg (by norm_num)]
    have h := seriesLoop_spec f n hz hnz fuel' 1 le_rfl (by omega) (by omega)
    simp only [Finset.range_one, Finset.sum_singleton, Nat.sub_self, Finset.range_zero,
      Finset.sum_empty, Nat.cast_zero, Nat.cast_one] at h
    rw [show (0 : ℚ) + 1 = 1 from by ring, show (0 : ℚ) + f 0 = f 0 from by ring]
    exact h
  refine ⟨main, fun h0 => ?_⟩
  have hn : n = 0 := by
    by_contra hc
    exact hnz 0 (by omega) (by simpa using h0)
  subst hn
  simpa using main

theorem C10_witness :
    (fun _ : ℚ => (0:ℚ)) 0 = 0 ∧ (∀ k : ℕ, k < 0 → (fun _ : ℚ => (0:ℚ)) (k : ℚ) ≠ 0) ∧
      0 + 2 ≤ 2 ∧
      (series (fun _ => 0) 2 = some (∑ k ∈ Finset.range 0, (fun _ : ℚ => (0:ℚ)) (k : ℚ)) ∧
        ((fun _ : ℚ => (0:ℚ)) 0 = 0 → series (fun _ => 0) 2 = some 0)) :=
  ⟨rfl, fun k hk => absurd hk (Nat.not_lt_zero k), by norm_num,
    C10_series_stops_at_first_unchanged (fun _ => 0) 0 2 rfl
      (fun k hk => absurd hk (Nat.not_lt_zero k)) (by norm_num)⟩

/-! ## Claim C8: the CLI surface of `main.go` -/

/-- One `flag` registration of `main.go`. -/
structure FlagSpec where
  name : String
  defVal : String

/-- The flags registered by `main.go`:
`flag.String("delta-test", "utest", …)` and `flag.Bool("html", false, …)`. -/
def benchstatFlags : List FlagSpec :=
  [⟨"delta-test", "utest"⟩, ⟨"html", "false"⟩]

/-- The keys of the `deltaTestNames` map of `main.go`. -/
def deltaTestNames : List String :=
  ["none", "u", "u-test", "utest", "t", "t-test", "ttest"]

/-- The `main` usage check of `main.go`:
`deltaTest := deltaTestNames[strings.ToLower(*flagDeltaTest)]`, then
`if flag.NArg() < 1 || deltaTest == nil { flag.Usage() }`, and `usage` ends in
`os.Exit(2)`; otherwise the run proceeds (exit code 0). -/
def benchstatExitCode (nArgs : ℕ) (deltaTestFlag : String) : ℕ :=
  if nArgs < 1 ∨ deltaTestFlag.toLower ∉ deltaTestNames then 2 else 0

/-- **C8** (counterexample): the claim that the CLI accepts exactly the flags
`--delta-test`, `--alpha`, `--geomean`, `--html` is false of `main.go`: no
`alpha` and no `geomean` flag is registered (the 0.05 significance threshold
is hard-coded as `pval <= 0.05` in the two-file comparison). -/
theorem C8_cli_counterexample :
    "alpha" ∉ benchstatFlags.map FlagSpec.name ∧
      "geomean" ∉ benchstatFlags.map FlagSpec.name ∧
      benchstatFlags.map FlagSpec.name = ["delta-test", "html"] := by
  refine ⟨by decide, by decide, rfl⟩

/-- **C8** (amended): the CLI registers exactly the flags `-delta-test`
(string, default `"utest"`) and `-html`; the delta-test value, lowercased,
must be one of `none`, `u`, `u-test`, `utest`, `t`, `t-test`, `ttest`
(`utest`, `ttest` and `none` among them); the process exits with code 2
exactly when there are no positional arguments or the lowercased delta-test
name is unknown, and exits 0 otherwise. -/
theorem C8_cli_flags_amended :
    benchstatFlags.map FlagSpec.name = ["delta-test", "html"] ∧
    (benchstatFlags.map FlagSpec.defVal).head? = some "utest" ∧
    ("utest" ∈ deltaTestNames ∧ "ttest" ∈ deltaTestNames ∧ "none" ∈ deltaTestNames) ∧
    (∀ nArgs s, benchstatExitCode nArgs s = 2 ∨ benchstatExitCode nArgs s = 0) ∧
    (∀ nArgs s, benchstatExitCode nArgs s = 2 ↔
      (nArgs = 0 ∨ s.toLower ∉ deltaTestNames)) := by
  refine ⟨rfl, rfl, by decide, ?_, ?_⟩
  · intro nArgs s
    rw [benchstatExitCode]
    split_ifs
    · exact Or.inl rfl
    · exact Or.inr rfl
  · intro nArgs s
    rw [benchstatExitCode]
    split_ifs with h
    · refine ⟨fun _ => ?_, fun _ => rfl⟩
      rcases h with h | h
      · exact Or.inl (by omega)
      · exact Or.inr h
    · push_neg at h
      refine ⟨fun h2 => absurd h2 (by norm_num), fun hr => ?_⟩
      rcases hr with hr | hr
      · omega
      · exact absurd h.2 (by simp [hr])

/-! ## Claim C9: `Benchmark.Metric` nil-receiver safety (`main.go`) -/

/-- A `Metric` record of `main.go` (named `BMetric` here to leave the method
name `Benchmark.Metric` free). -/
structure BMetric where
  Name : String
  Unit : String
  Val : ℚ

/-- A `Run` of `main.go`: iteration count and metrics. -/
structure Run where
  N : ℤ
  M : List BMetric

/-- A `Benchmark` of `main.go`: a collection of runs. -/
structure Benchmark where
  Name : String
  Runs : List Run

/-- A `Benchstat` of `main.go`: the metrics along one axis. -/
structure Benchstat where
  Name : String
  Unit : String
  Values : List ℚ
  RValues : List ℚ
  Min : ℚ
  Mean : ℚ
  Max : ℚ

/-- The collection loop of `Benchmark.Metric`: walk the runs and their
metrics, recording the unit and appending the value of each metric whose name
matches. -/
def collectMetric (runs : List Run) (name : String) : String × List ℚ :=
  runs.foldl
    (fun acc r =>
      r.M.foldl (fun acc m => if m.Name = name then (m.Unit, acc.2 ++ [m.Val]) else acc) acc)
    ("", [])

/-- `Benchmark.Metric` of `main.go`, with the Go pointer receiver as an
`Option`: a nil receiver returns nil immediately (`if b == nil { return nil }`),
as does an empty collected value list (`if stat.Values == nil`); otherwise the
outlier filtering and summary statistics fill `RValues`, `Min`, `Mean`, `Max`
— abstracted here as the `summarize` parameter, since their helper
`stats.Sample.Percentile` is not under `src/` and claim C9 does not depend on
the numbers. -/
def Benchmark.Metric (summarize : List ℚ → List ℚ × ℚ × ℚ × ℚ)
    (b : Option Benchmark) (name : String) : Option Benchstat :=
  match b with
  | none => none
  | some b =>
    let pair := collectMetric b.Runs name
    if pair.2 = [] then none
    else
      let s := summarize pair.2
      some ⟨name, pair.1, pair.2, s.1, s.2.1, s.2.2.1, s.2.2.2⟩

/-- A `Group` of `main.go`: `ByName` is the name-to-benchmark map (a Go map
miss yields `nil` = `none`). -/
structure Group where
  File : String
  Benchmarks : List Benchmark
  ByName : String → Option Benchmark

/-- The inner loop of the three-or-more-file `default` case of `main`: starting
from `row = [name]` and no scaler, each group appends `""` when
`group.ByName[name].Metric(metric)` is nil, and otherwise latches the first
stat's scaler (`if scaler == nil`) and appends the formatted cell. -/
def buildRowGo (summarize : List ℚ → List ℚ × ℚ × ℚ × ℚ)
    (scalerOf : Benchstat → Benchstat → String)
    (format : Benchstat → (Benchstat → String) → String) (name metric : String) :
    List Group → List String → Option (Benchstat → String) → List String
  | [], row, _ => row
  | g :: gs, row, scaler =>
    match Benchmark.Metric summarize (g.ByName name) metric with
    | none => buildRowGo summarize scalerOf format name metric gs (row ++ [""]) scaler
    | some stat =>
      buildRowGo summarize scalerOf format name metric gs
        (row ++ [format stat (scaler.getD (scalerOf stat))])
        (some (scaler.getD (scalerOf stat)))

/-- The row the `default` case builds for one benchmark `name` and one
`metric`, before the trailing-blank trim. -/
def buildRow (summarize : List ℚ → List ℚ × ℚ × ℚ × ℚ)
    (scalerOf : Benchstat → Benchstat → String)
    (format : Benchstat → (Benchstat → String) → String)
    (groups : List Group) (name metric : String) : List String :=
  buildRowGo summarize scalerOf format name metric groups [name] none

lemma buildRowGo_prefix (summarize : List ℚ → List ℚ × ℚ × ℚ × ℚ)
    (scalerOf : Benchstat → Benchstat → String)
    (format : Benchstat → (Benchstat → String) → String) (name metric : String) :
    ∀ gs row scaler, ∃ suffix,
      buildRowGo summarize scalerOf format name metric gs row scaler = row ++ suffix := by
  intro gs
  induction gs with
  | nil =>
    intro row scaler
    exact ⟨[], by simp [buildRowGo]⟩
  | cons g gs ih =>
    intro row scaler
    cases hm : Benchmark.Metric summarize (g.ByName name) metric with
    | none =>
      obtain ⟨suffix, hs⟩ := ih (row ++ [""]) scaler
      refine ⟨"" :: suffix, ?_⟩
      simp only [buildRowGo, hm]
      rw [hs]
      simp
    | some stat =>
      obtain ⟨suffix, hs⟩ := ih (row ++ [format stat (scaler.getD (scalerOf stat))])
        (some (scaler.getD (scalerOf stat)))
      refine ⟨format stat (scaler.getD (scalerOf stat)) :: suffix, ?_⟩
      simp only [buildRowGo, hm]
      rw [hs]
      simp

lemma buildRowGo_blank (summarize : List ℚ → List ℚ × ℚ × ℚ × ℚ)
    (scalerOf : Benchstat → Benchstat → String)
    (format : Benchstat → (Benchstat → String) → String) (name metric : String) :
    ∀ gs (i : ℕ) (hi : i < gs.length) row scaler,
      (gs.get ⟨i, hi⟩).ByName name = none →
      (buildRowGo summarize scalerOf format name metric gs row scaler).get?
        (row.length + i) = some "" := by
  intro gs
  induction gs with
  | nil =>
    intro i hi
    exact absurd hi (by simp)
  | cons g gs ih =>
    intro i hi row scaler habsent
    cases i with
    | zero =>
      have hg : g.ByName name = none := habsent
      have hmet : Benchmark.Metric summarize (g.ByName name) metric = none := by
        rw [hg]
        rfl
      simp only [buildRowGo, hmet]
      obtain ⟨suffix, hs⟩ := buildRowGo_prefix summarize scalerOf format name metric gs
        (row ++ [""]) scaler
      rw [hs, List.append_assoc, List.get?_append_right (by omega)]
      simp
    | succ j =>
      have hj : j < gs.length := by simpa using hi
      have hg : (gs.get ⟨j, hj⟩).ByName name = none := habsent
      cases hm : Benchmark.Metric summarize (g.ByName name) metric with
      | none =>
        have h := ih j hj (row ++ [""]) scaler hg
        simp only [buildRowGo, hm]
        rw [show row.length + (j + 1) = (row ++ [""]).length + j from by
          simp only [List.length_append, List.length_cons, List.length_nil]
          omega]
        exact h
      | some stat =>
        have h := ih j hj (row ++ [format stat (scaler.getD (scalerOf stat))])
          (some (scaler.getD (scalerOf stat))) hg
        simp only [buildRowGo, hm]
        rw [show row.length + (j + 1) =
            (row ++ [format stat (scaler.getD (scalerOf stat))]).length + j from by
          simp only [List.length_append, List.length_cons, List.length_nil]
          omega]
        exact h

/-- **C9**: calling `(*Benchmark).Metric(name)` on a nil receiver returns nil
instead of dereferencing, so in the three-or-more-file comparison table a
benchmark absent from one input group (a `ByName` miss) produces the blank
cell `""` at that group's position of the row rather than a crash. -/
theorem C9_metric_nil_receiver (summarize : List ℚ → List ℚ × ℚ × ℚ × ℚ)
    (scalerOf : Benchstat → Benchstat → String)
    (format : Benchstat → (Benchstat → String) → String)
    (groups : List Group) (name metric : String) (i : ℕ) (hi : i < groups.length)
    (habsent : (groups.get ⟨i, hi⟩).ByName name = none) :
    Benchmark.Metric summarize none name = none ∧
    (buildRow summarize scalerOf format groups name metric).get? (1 + i) = some "" := by
  refine ⟨rfl, ?_⟩
  have h := buildRowGo_blank summarize scalerOf format name metric groups i hi [name] none
    habsent
  simpa [buildRow] using h

theorem C9_witness :
    0 < ([⟨"old.txt", [], fun _ => none⟩] : List Group).length ∧
      (([⟨"old.txt", [], fun _ => none⟩] : List Group).get ⟨0, by norm_num⟩).ByName "X" = none ∧
      (Benchmark.Metric (fun _ => ([], 0, 0, 0)) none "X" = none ∧
        (buildRow (fun _ => ([], 0, 0, 0)) (fun _ _ => "") (fun _ _ => "")
          [⟨"old.txt", [], fun _ => none⟩] "X" "time/op").get? (1 + 0) = some "") :=
  ⟨by norm_num, rfl,
    C9_metric_nil_receiver (fun _ => ([], 0, 0, 0)) (fun _ _ => "") (fun _ _ => "")
      [⟨"old.txt", [], fun _ => none⟩] "X" "time/op" 0 (by norm_num) rfl⟩

end Benchstat
